import Mathlib

/-!
The profiler of `ompl/tools/debug/src/Profiler.cpp`.

A shallow embedding of the profiling engine of `ompl::tools::Profiler`.

Conventions of the embedding

* `std::map<K, V>` is a key-ordered association list (`StdMap.set` inserts at
  the place the key order gives, `StdMap.find` looks a key up); iterating a map
  is iterating that list from its head, which is the order `std::map` iterates in.
* `std::this_thread::get_id()` is an explicit argument `tid : Nat` of every
  operation that keys the per-thread data, and `time::now()` is an explicit
  argument `now : Int` (ticks of the clock) of every operation that reads the clock.
* `time::duration` and `time::point` are tick counts in `Int`, of 64 bits: the sum of
  two stored totals in `totalThreadData` is reduced to that range (`wrapDuration`).
* The event counters are `unsigned long` of 64 bits: natural numbers with every sum
  reduced `% 2 ^ 64`. The numbers of parts, which grow by one for each call, are `Nat`.
* `double` accumulators are rationals. `average` and `totalThreadData` add them exactly
  (the claims on averages are stated over exact arithmetic); `totalThreadDataRounded` is
  `totalThreadData` with every `double` sum rounded, by `roundDouble` for binary64. The
  `double` values of the report are rationals extended by the infinities and NaN (`Dbl`).
* `status` and `printThreadInfo` are the data they write to the stream, not its text.
-/

namespace ompl.tools

/-! ## std::map -/

/-- The strict order `std::less<K>` a `std::map<K, V>` keeps its keys in. -/
class StdLess (K : Type) where
  less : K → K → Bool

/-- The laws of a strict total order, which `std::less` has on thread ids and strings. -/
class StdLess.Lawful (K : Type) [StdLess K] : Prop where
  irrefl : ∀ a : K, StdLess.less a a = false
  trans : ∀ a b c : K, StdLess.less a b = true → StdLess.less b c = true →
    StdLess.less a c = true
  total : ∀ a b : K, StdLess.less a b = true ∨ a = b ∨ StdLess.less b a = true

/-- Thread ids are numbered; `std::less<std::thread::id>` is the order of the numbers. -/
instance : StdLess Nat := ⟨fun a b => decide (a < b)⟩

/-- Lexicographic comparison of two character sequences (`std::string::compare < 0`). -/
def lexLess : List Char → List Char → Bool
  | [], [] => false
  | [], _ :: _ => true
  | _ :: _, [] => false
  | a :: as, b :: bs =>
    if a.toNat < b.toNat then true else if b.toNat < a.toNat then false else lexLess as bs

/-- The order `std::less<std::string>`. -/
instance : StdLess String := ⟨fun a b => lexLess a.data b.data⟩

/-- The entries of a `std::map<K, V>`, in key order. -/
abbrev StdMap (K V : Type) := List (K × V)

namespace StdMap

variable {K V : Type}

/-- The value stored under `k`, as `std::map::find` gives it (`none` for `end()`). -/
def find [DecidableEq K] : StdMap K V → K → Option V
  | [], _ => none
  | (k0, v0) :: rest, k => if k = k0 then some v0 else find rest k

/-- The map with `k` bound to `v`: the entry is replaced where the key is present,
and inserted at its place in key order where it is not. -/
def set [DecidableEq K] [StdLess K] (k : K) (v : V) : StdMap K V → StdMap K V
  | [] => [(k, v)]
  | (k0, v0) :: rest =>
    if k = k0 then (k, v) :: rest
    else if StdLess.less k k0 then (k, v) :: (k0, v0) :: rest
    else (k0, v0) :: set k v rest

/-- The value `m[k]` refers to: the stored one, or the value-initialised
`dflt` that `operator[]` inserts for an absent key. -/
def sub [DecidableEq K] (m : StdMap K V) (k : K) (dflt : V) : V :=
  (find m k).getD dflt

/-- The map after `m[k] = f(m[k])`, with `dflt` the value `operator[]` inserts
for an absent key. -/
def update [DecidableEq K] [StdLess K] (m : StdMap K V) (k : K) (dflt : V) (f : V → V) : StdMap K V :=
  set k (f (sub m k dflt)) m

/-- The keys of a map, in iteration order. -/
def keys (m : StdMap K V) : List K := m.map Prod.fst

/-- The invariant of `std::map`: keys strictly increasing (so no key twice). -/
def WF [StdLess K] (m : StdMap K V) : Prop :=
  (keys m).Pairwise (fun a b => StdLess.less a b = true)

/-- The entry a loop `for w in ws: c[k] = op(c[k], w)` leaves under the key `k` of a
map `c` whose entry under `k` was `acc` (`d` is the value `operator[]` inserts). -/
def foldEntry {W : Type} (op : V → W → V) (d : V) (acc : Option V) (ws : List W) : Option V :=
  ws.foldl (fun a w => some (op (a.getD d) w)) acc

end StdMap

/-! ## Data of Profiler.h used by Profiler.cpp -/

/-- Modelled from the spec: `time::duration::max()`, the initial `shortest` of a
`TimeInfo` ("a sentinel larger than any real duration"); `Profiler.h` is not among
the sources. The tick count is a signed 64-bit integer. -/
def durationMax : Int := 2 ^ 63 - 1

/-- Modelled from the spec: `time::duration::min()`, the initial `longest` of a
`TimeInfo` (a "negative sentinel"); `Profiler.h` is not among the sources. -/
def durationMin : Int := -(2 ^ 63)

/-- The value a sum of two `time::duration` has in its 64-bit signed tick count: the
number congruent to `x` modulo `2 ^ 64` that lies from `durationMin` to `durationMax`. -/
def wrapDuration (x : Int) : Int := (x + 2 ^ 63) % 2 ^ 64 - 2 ^ 63

/-- Information about time spent in a section of the code (`TimeInfo`). -/
@[ext]
structure TimeInfo where
  total : Int
  shortest : Int
  longest : Int
  parts : Nat
  start : Int
deriving DecidableEq

/-- Modelled from the spec: the constructor `TimeInfo()` of `Profiler.h` (not among
the sources): total zero, no parts, `shortest` at the large sentinel, `longest` at
the negative sentinel, `start` the default time point. -/
def TimeInfo.init : TimeInfo :=
  { total := 0, shortest := durationMax, longest := durationMin, parts := 0, start := 0 }

/-- Modelled from the spec: `TimeInfo::set()` of `Profiler.h` (not among the
sources): "(re)sets `startedAt` to now". -/
def TimeInfo.set (ti : TimeInfo) (now : Int) : TimeInfo :=
  { ti with start := now }

/-- Modelled from the spec: `TimeInfo::update()` of `Profiler.h` (not among the
sources): "computes elapsed = now − startedAt, then: `total += elapsed`,
`count += 1`, `shortest = min(shortest, elapsed)`, `longest = max(longest, elapsed)`". -/
def TimeInfo.update (ti : TimeInfo) (now : Int) : TimeInfo :=
  let dt := now - ti.start
  { ti with
    shortest := min ti.shortest dt
    longest := max ti.longest dt
    total := ti.total + dt
    parts := ti.parts + 1 }

/-- Information maintained about averaged values (`AvgInfo`). -/
@[ext]
structure AvgInfo where
  total : ℚ
  totalSqr : ℚ
  parts : Nat
deriving DecidableEq

/-- The value-initialised `AvgInfo` that `operator[]` inserts. -/
def AvgInfo.zero : AvgInfo := { total := 0, totalSqr := 0, parts := 0 }

/-- The integer nearest to `q`, the even one of the two when `q` lies halfway. -/
def roundHalfEven (q : ℚ) : ℤ :=
  if q - ⌊q⌋ < 1 / 2 then ⌊q⌋
  else if 1 / 2 < q - ⌊q⌋ then ⌊q⌋ + 1
  else if ⌊q⌋ % 2 = 0 then ⌊q⌋ else ⌊q⌋ + 1

/-- The `double` that an arithmetic result of exact value `x` is stored as (IEEE 754
binary64, round to nearest, ties to even): `x` rounded to 53 significant bits. The
exponent is not bounded here: no overflow to an infinity and no subnormal numbers. -/
def roundDouble (x : ℚ) : ℚ :=
  if x = 0 then 0
  else roundHalfEven (x / 2 ^ (Int.log 2 |x| - 52)) * 2 ^ (Int.log 2 |x| - 52)

/-- Information to be maintained for each thread (`PerThread`). -/
structure PerThread where
  events : StdMap String Nat
  avg : StdMap String AvgInfo
  time : StdMap String TimeInfo
deriving DecidableEq

/-- A default-constructed `PerThread`: three empty maps. -/
def PerThread.empty : PerThread := { events := [], avg := [], time := [] }

/-- The statement `.events[key] += times` of `event`, on the `PerThread` that
`data_[std::this_thread::get_id()]` refers to; the counter is an `unsigned long`. -/
def PerThread.event (t : PerThread) (key : String) (times : Nat) : PerThread :=
  { t with events := t.events.update key 0 fun c => (c + times) % 2 ^ 64 }

/-- The statements on `a = .avg[key]` of `average` (`a.total += value`,
`a.totalSqr += value * value`, `a.parts++`), on the `PerThread` that
`data_[std::this_thread::get_id()]` refers to; the sums and the product of `double`
are exact. -/
def PerThread.average (t : PerThread) (key : String) (value : ℚ) : PerThread :=
  { t with avg := t.avg.update key AvgInfo.zero fun a =>
      { total := a.total + value, totalSqr := a.totalSqr + value * value,
        parts := a.parts + 1 } }

/-- The statement `.time[name].set()` of `begin`, on the `PerThread` that
`data_[std::this_thread::get_id()]` refers to. -/
def PerThread.begin (t : PerThread) (now : Int) (name : String) : PerThread :=
  { t with time := t.time.update name TimeInfo.init fun ti => ti.set now }

/-- The statement `.time[name].update()` of `end`, on the `PerThread` that
`data_[std::this_thread::get_id()]` refers to. -/
def PerThread.end_ (t : PerThread) (now : Int) (name : String) : PerThread :=
  { t with time := t.time.update name TimeInfo.init fun ti => ti.update now }

/-- The members of `Profiler` that Profiler.cpp reads and writes; `enablePrefix` and
`namePrefix` are the members `enable_prefix` and `prefix`. -/
structure Profiler where
  data_ : StdMap Nat PerThread
  tinfo_ : TimeInfo
  running_ : Bool
  printOnDestroy_ : Bool
  enablePrefix : Bool
  namePrefix : String
deriving DecidableEq

namespace Profiler

/-- The key `enable_prefix ? prefix + name : name` of `event` and `average`. -/
def key (p : Profiler) (name : String) : String :=
  if p.enablePrefix then p.namePrefix ++ name else name

/-- `Profiler::start()` at clock time `now`. -/
def start (p : Profiler) (now : Int) : Profiler :=
  if !p.running_ then { p with tinfo_ := p.tinfo_.set now, running_ := true } else p

/-- `Profiler::stop()` at clock time `now`. -/
def stop (p : Profiler) (now : Int) : Profiler :=
  if p.running_ then { p with tinfo_ := p.tinfo_.update now, running_ := false } else p

/-- `Profiler::clear()` at clock time `now`. -/
def clear (p : Profiler) (now : Int) : Profiler :=
  let p1 := { p with data_ := [], tinfo_ := TimeInfo.init }
  if p1.running_ then { p1 with tinfo_ := p1.tinfo_.set now } else p1

/-- `Profiler::event(name, times)` called by thread `tid`. -/
def event (p : Profiler) (tid : Nat) (name : String) (times : Nat) : Profiler :=
  { p with data_ := p.data_.update tid PerThread.empty fun t => t.event (p.key name) times }

/-- `Profiler::average(name, value)` called by thread `tid`. -/
def average (p : Profiler) (tid : Nat) (name : String) (value : ℚ) : Profiler :=
  { p with data_ := p.data_.update tid PerThread.empty fun t => t.average (p.key name) value }

/-- `Profiler::begin(name)` called by thread `tid` at clock time `now`. -/
def begin (p : Profiler) (tid : Nat) (now : Int) (name : String) : Profiler :=
  { p with data_ := p.data_.update tid PerThread.empty fun t => t.begin now name }

/-- `Profiler::end(name)` called by thread `tid` at clock time `now`. -/
def end_ (p : Profiler) (tid : Nat) (now : Int) (name : String) : Profiler :=
  { p with data_ := p.data_.update tid PerThread.empty fun t => t.end_ now name }

/-- The body of the `iev` loop of `totalThreadData`; the counter is an
`unsigned long`. -/
def addEvent (combined : PerThread) (iev : String × Nat) : PerThread :=
  { combined with events := combined.events.update iev.1 0 fun c => (c + iev.2) % 2 ^ 64 }

/-- The three `+=` on `combined.avg[iavg->first]` in the `iavg` loop of
`totalThreadData`, the two sums of `double` being exact (the arithmetic over which the
claims on averages are stated); `mergeAvgRounded` is the same assignment with the sums
rounded. -/
def mergeAvg (a iavg : AvgInfo) : AvgInfo :=
  { total := a.total + iavg.total, totalSqr := a.totalSqr + iavg.totalSqr,
    parts := a.parts + iavg.parts }

/-- The body of the `iavg` loop of `totalThreadData`. -/
def addAvg (combined : PerThread) (iavg : String × AvgInfo) : PerThread :=
  { combined with avg := combined.avg.update iavg.1 AvgInfo.zero fun a => mergeAvg a iavg.2 }

/-- The assignments to `tc` in the `itm` loop of `totalThreadData`; the sum of the two
totals is a 64-bit `time::duration`. -/
def mergeTime (tc itm : TimeInfo) : TimeInfo :=
  let tc1 := { tc with total := wrapDuration (tc.total + itm.total) }
  let tc2 := { tc1 with parts := tc1.parts + itm.parts }
  let tc3 := if tc2.shortest > itm.shortest then { tc2 with shortest := itm.shortest } else tc2
  if tc3.longest < itm.longest then { tc3 with longest := itm.longest } else tc3

/-- The body of the `itm` loop of `totalThreadData`. -/
def addTime (combined : PerThread) (itm : String × TimeInfo) : PerThread :=
  { combined with time := combined.time.update itm.1 TimeInfo.init fun tc => mergeTime tc itm.2 }

/-- The body of the loop of `totalThreadData` over the threads. -/
def addThread (combined : PerThread) (it : Nat × PerThread) : PerThread :=
  let c1 := it.2.events.foldl addEvent combined
  let c2 := it.2.avg.foldl addAvg c1
  it.2.time.foldl addTime c2

/-- `Profiler::totalThreadData()`, the sums of `double` being exact. -/
def totalThreadData (p : Profiler) : PerThread :=
  p.data_.foldl addThread PerThread.empty

/-- The three `+=` on `combined.avg[iavg->first]` in the `iavg` loop of
`totalThreadData`, each sum of two `double` stored as `rnd` of its exact value. -/
def mergeAvgRounded (rnd : ℚ → ℚ) (a iavg : AvgInfo) : AvgInfo :=
  { total := rnd (a.total + iavg.total), totalSqr := rnd (a.totalSqr + iavg.totalSqr),
    parts := a.parts + iavg.parts }

/-- The body of the `iavg` loop of `totalThreadData`, with the sums of `double` rounded. -/
def addAvgRounded (rnd : ℚ → ℚ) (combined : PerThread) (iavg : String × AvgInfo) : PerThread :=
  { combined with
    avg := combined.avg.update iavg.1 AvgInfo.zero fun a => mergeAvgRounded rnd a iavg.2 }

/-- The body of the loop of `totalThreadData` over the threads, with the sums of
`double` rounded. -/
def addThreadRounded (rnd : ℚ → ℚ) (combined : PerThread) (it : Nat × PerThread) : PerThread :=
  let c1 := it.2.events.foldl addEvent combined
  let c2 := it.2.avg.foldl (addAvgRounded rnd) c1
  it.2.time.foldl addTime c2

/-- `Profiler::totalThreadData()`, each sum of two `double` stored as `rnd` of its exact
value: `roundDouble` for binary64, the identity for exact sums (`totalThreadData`). -/
def totalThreadDataRounded (rnd : ℚ → ℚ) (p : Profiler) : PerThread :=
  p.data_.foldl (addThreadRounded rnd) PerThread.empty

/-- The per-thread values stored under the event key `k`, thread by thread. -/
def eventsOf (p : Profiler) (k : String) : List Nat :=
  p.data_.filterMap fun it => StdMap.find it.2.events k

/-- The per-thread values stored under the average key `k`, thread by thread. -/
def avgsOf (p : Profiler) (k : String) : List AvgInfo :=
  p.data_.filterMap fun it => StdMap.find it.2.avg k

/-- The per-thread values stored under the block name `k`, thread by thread. -/
def timesOf (p : Profiler) (k : String) : List TimeInfo :=
  p.data_.filterMap fun it => StdMap.find it.2.time k

/-- The state after the calls `event(name, times)` of `calls`, each made by its thread,
in the order of the list. -/
def runEvents (p : Profiler) (calls : List (Nat × String × Nat)) : Profiler :=
  calls.foldl (fun q c => q.event c.1 c.2.1 c.2.2) p

/-- The state after the calls `average(name, value)` of `calls`, each made by its
thread, in the order of the list. -/
def runAverages (p : Profiler) (calls : List (Nat × String × ℚ)) : Profiler :=
  calls.foldl (fun q c => q.average c.1 c.2.1 c.2.2) p

end Profiler

/-! ## The averages of the report (`printThreadInfo`) -/

/-- A value of type `double` in the report: a finite number, an infinity, or NaN. -/
inductive Dbl where
  | fin (q : ℚ)
  | inf
  | ninf
  | nan
deriving DecidableEq

namespace Dbl

/-- `x - y` on `double`. -/
def sub : Dbl → Dbl → Dbl
  | fin x, fin y => fin (x - y)
  | fin _, inf => ninf
  | fin _, ninf => inf
  | inf, fin _ => inf
  | inf, ninf => inf
  | ninf, fin _ => ninf
  | ninf, inf => ninf
  | _, _ => nan

/-- The product of a `double` that is not finite and the finite `y`. -/
def scale (pos neg : Dbl) (y : ℚ) : Dbl :=
  if 0 < y then pos else if y < 0 then neg else nan

/-- `x * y` on `double`. -/
def mul : Dbl → Dbl → Dbl
  | fin x, fin y => fin (x * y)
  | fin x, inf => scale inf ninf x
  | fin x, ninf => scale ninf inf x
  | inf, fin y => scale inf ninf y
  | ninf, fin y => scale ninf inf y
  | inf, inf => inf
  | ninf, ninf => inf
  | inf, ninf => ninf
  | ninf, inf => ninf
  | _, _ => nan

/-- `std::abs(x)` on `double`. -/
def abs : Dbl → Dbl
  | fin x => fin |x|
  | inf => inf
  | ninf => inf
  | nan => nan

/-- `x / y` on `double`, the zero divisor being `+0.0`: a non-zero number over zero is
an infinity, zero over zero is NaN. -/
def div : Dbl → Dbl → Dbl
  | fin x, fin y => if y = 0 then scale inf ninf x else fin (x / y)
  | fin _, inf => fin 0
  | fin _, ninf => fin 0
  | inf, fin y => if y < 0 then ninf else inf
  | ninf, fin y => if y < 0 then inf else ninf
  | _, _ => nan

/-- `x > y` on `double` (false when either is NaN). -/
def gt : Dbl → Dbl → Bool
  | fin x, fin y => decide (y < x)
  | fin _, ninf => true
  | inf, fin _ => true
  | inf, ninf => true
  | _, _ => false

end Dbl

/-- A line of the section "Averages:" before it is printed (`dataDoubleVal`). -/
structure dataDoubleVal where
  name : String
  value : Dbl
deriving DecidableEq

/-- The comparison `SortDoubleByValue`: `a.value > b.value`. -/
def SortDoubleByValue (a b : dataDoubleVal) : Bool :=
  Dbl.gt a.value b.value

namespace Profiler

/-- The vector `avg` of `printThreadInfo` as the loop over `data.avg` fills it: each
name with `total / (double)parts`. -/
def avgVector (data : PerThread) : List dataDoubleVal :=
  data.avg.map fun ia =>
    { name := ia.1, value := Dbl.div (Dbl.fin ia.2.total) (Dbl.fin ia.2.parts) }

/-- The divisor `(double)a.parts - 1.` of the standard deviation. -/
def stddevDivisor (a : AvgInfo) : Dbl :=
  Dbl.sub (Dbl.fin a.parts) (Dbl.fin 1)

/-- The argument of `std::sqrt` in the line of an average:
`std::abs(a.totalSqr - (double)a.parts * value * value) / ((double)a.parts - 1.)`. -/
def stddevArg (a : AvgInfo) (value : Dbl) : Dbl :=
  Dbl.div
    (Dbl.abs (Dbl.sub (Dbl.fin a.totalSqr) (Dbl.mul (Dbl.mul (Dbl.fin a.parts) value) value)))
    (stddevDivisor a)

/-- The lines of the section "Averages:" in the order `printThreadInfo` prints them (the
vector sorted with `SortDoubleByValue`; `std::sort`, which leaves the order of equal
values open, is an insertion sort here): the name, the average, and the number whose
square root is printed as `stddev`. -/
def avgLines (data : PerThread) : List (String × Dbl × Dbl) :=
  ((avgVector data).insertionSort fun a b => SortDoubleByValue a b = true).filterMap fun d =>
    (StdMap.find data.avg d.name).map fun a => (d.name, d.value, stddevArg a d.value)

end Profiler

/-! ## The events and the blocks of time of the report, and `status` -/

/-- `x >= y` on `double` (false when either is NaN). -/
def Dbl.ge : Dbl → Dbl → Bool
  | Dbl.fin x, Dbl.fin y => decide (y ≤ x)
  | Dbl.nan, _ => false
  | _, Dbl.nan => false
  | Dbl.inf, _ => true
  | _, Dbl.ninf => true
  | _, _ => false

/-- Modelled from the spec: `time::seconds` of `ompl/util/Time.h` (not among the sources),
the duration "convertible to seconds (floating point) at the reporting boundary"; a tick
of the clock is a nanosecond. -/
def seconds (d : Int) : ℚ := (d : ℚ) / 1000000000

/-- A line of the section "Events:" (`dataIntVal`). -/
structure dataIntVal where
  name : String
  value : Nat
deriving DecidableEq

/-- The comparison `SortIntByValue`: `a.value > b.value`. -/
def SortIntByValue (a b : dataIntVal) : Bool :=
  decide (b.value < a.value)

/-- A line of the section "Blocks of time:": the name, the seconds spent, their share of
the total in percent, the shortest and the longest interval in seconds, the number of
parts and, when there is a part, the seconds per part. -/
structure TimeLine where
  name : String
  value : Dbl
  percent : Dbl
  shortest : ℚ
  longest : ℚ
  parts : Nat
  average : Option Dbl
deriving DecidableEq

/-- What `printThreadInfo` writes for one `PerThread`: the lines of the three sections
and, when it is not negative, the unaccounted time with its share of the total when the
total is positive. -/
structure ThreadReport where
  events : List dataIntVal
  avg : List (String × Dbl × Dbl)
  time : List TimeLine
  unaccounted : Option (Dbl × Option Dbl)
deriving DecidableEq

namespace Profiler

/-- The vector `events` of `printThreadInfo` as the loop over `data.events` fills it. -/
def eventVector (data : PerThread) : List dataIntVal :=
  data.events.map fun iev => { name := iev.1, value := iev.2 }

/-- The lines of the section "Events:" in the order `printThreadInfo` prints them: the
vector sorted with `SortIntByValue` (`std::sort` is an insertion sort here). -/
def eventLines (data : PerThread) : List dataIntVal :=
  (eventVector data).insertionSort fun a b => SortIntByValue a b = true

/-- The vector `time` of `printThreadInfo` as the loop over `data.time` fills it: each
name with `time::seconds` of its total. -/
def timeVector (data : PerThread) : List dataDoubleVal :=
  data.time.map fun itm => { name := itm.1, value := Dbl.fin (seconds itm.2.total) }

/-- The vector `time` after `std::sort` with `SortDoubleByValue`. -/
def timeSorted (data : PerThread) : List dataDoubleVal :=
  (timeVector data).insertionSort fun a b => SortDoubleByValue a b = true

/-- The lines of the section "Blocks of time:" in the order `printThreadInfo` prints
them; `total` is `time::seconds(tinfo_.total)`. -/
def timeLines (total : Dbl) (data : PerThread) : List TimeLine :=
  (timeSorted data).filterMap fun t =>
    (StdMap.find data.time t.name).map fun d =>
      { name := t.name
        value := t.value
        percent := Dbl.div (Dbl.mul (Dbl.fin 100) t.value) total
        shortest := seconds d.shortest
        longest := seconds d.longest
        parts := d.parts
        average :=
          if 0 < d.parts then some (Dbl.div (Dbl.fin (seconds d.total)) (Dbl.fin d.parts))
          else none }

/-- `Profiler::printThreadInfo(out, data)`, as the data it writes to `out`. -/
def printThreadInfo (p : Profiler) (data : PerThread) : ThreadReport :=
  let total := Dbl.fin (seconds p.tinfo_.total)
  let unaccounted := (timeSorted data).foldl (fun u t => Dbl.sub u t.value) total
  { events := eventLines data
    avg := avgLines data
    time := timeLines total data
    unaccounted :=
      if Dbl.ge unaccounted (Dbl.fin 0) then
        some (unaccounted,
          if Dbl.gt total (Dbl.fin 0) then
            some (Dbl.div (Dbl.mul (Dbl.fin 100) unaccounted) total)
          else none)
      else none }

/-- What `status` writes to `out`: the total counted time in seconds, then one
`printThreadInfo` for the merged data (`none`) or one for each thread
(`some` of its id). -/
structure StatusReport where
  total : ℚ
  threads : List (Option Nat × ThreadReport)
deriving DecidableEq

/-- `Profiler::status(out, merge)` at clock time `now`: the state it leaves and what it
writes to `out`. -/
def status (p : Profiler) (now : Int) (merge : Bool) : Profiler × StatusReport :=
  let p1 := p.stop now
  let p2 := { p1 with printOnDestroy_ := false }
  (p2,
    { total := seconds p2.tinfo_.total
      threads :=
        if merge then [(none, p2.printThreadInfo p2.totalThreadData)]
        else p2.data_.map fun it => (some it.1, p2.printThreadInfo it.2) })

end Profiler

/-- Every average of a ledger has at least one sample. -/
def PerThread.Sampled (t : PerThread) : Prop :=
  ∀ e ∈ t.avg, 0 < e.2.parts

/-- A call of one of the operations of the engine, with the calling thread and the
clock time where the operation reads them. -/
inductive Call where
  | event (tid : Nat) (name : String) (times : Nat)
  | average (tid : Nat) (name : String) (value : ℚ)
  | begin (tid : Nat) (now : Int) (name : String)
  | end_ (tid : Nat) (now : Int) (name : String)
  | start (now : Int)
  | stop (now : Int)
  | clear (now : Int)

/-- The state after one call. -/
def Profiler.step (p : Profiler) : Call → Profiler
  | .event tid name times => p.event tid name times
  | .average tid name value => p.average tid name value
  | .begin tid now name => p.begin tid now name
  | .end_ tid now name => p.end_ tid now name
  | .start now => p.start now
  | .stop now => p.stop now
  | .clear now => p.clear now

/-- The state after a sequence of calls, made in the order of the list. -/
def Profiler.run (p : Profiler) (calls : List Call) : Profiler :=
  calls.foldl Profiler.step p

/-- Every time-block summary of a thread that has counted a part has
`shortest ≤ longest`. -/
def PerThread.Ordered (t : PerThread) : Prop :=
  ∀ e ∈ t.time, 0 < e.2.parts → e.2.shortest ≤ e.2.longest

/-- A state in which two threads have timed the block "b" (thread 1 twice, for 2 and 3
ticks; thread 2 once, for 7 ticks) and counted the event "task". -/
def twoThreads : Profiler :=
  { data_ :=
      [(1, { events := [("task", 1)], avg := [],
             time := [("b", { total := 5, shortest := 2, longest := 3, parts := 2, start := 10 })] }),
       (2, { events := [("task", 2)], avg := [],
             time := [("b", { total := 7, shortest := 7, longest := 7, parts := 1, start := 0 })] })]
    tinfo_ := TimeInfo.init
    running_ := false
    printOnDestroy_ := true
    enablePrefix := false
    namePrefix := "" }

/-- A running engine: started at clock time 100 with 40 ticks already counted, and
the per-thread data of `twoThreads`. -/
def runningEngine : Profiler :=
  { twoThreads with
    tinfo_ := { TimeInfo.init with total := 40, start := 100 }
    running_ := true }

/-- A state with one thread, which has counted the event "task" three times, averaged
"x" over the samples 2 and 4, timed the block "b" once for 6 ticks and begun the block
"open" at 9 without ending it. -/
def oneThread : Profiler :=
  { twoThreads with
    data_ :=
      [(7, { events := [("task", 3)],
             avg := [("x", { total := 6, totalSqr := 20, parts := 2 })],
             time := [("b", { total := 6, shortest := 6, longest := 6, parts := 1, start := 1 }),
                      ("open", { TimeInfo.init with start := 9 })] })] }

/-- The state after thread 1 has called `average("x", 9007199254740992.0)` (the `double`
`2 ^ 53`) and threads 2 and 3 have each called `average("x", 1.0)`, on a cleared
engine. -/
def bigSmallSmall : Profiler :=
  { twoThreads with
    data_ :=
      [(1, { events := [], time := [],
             avg := [("x", { total := 9007199254740992,
                             totalSqr := 81129638414606681695789005144064, parts := 1 })] }),
       (2, { events := [], time := [],
             avg := [("x", { total := 1, totalSqr := 1, parts := 1 })] }),
       (3, { events := [], time := [],
             avg := [("x", { total := 1, totalSqr := 1, parts := 1 })] })] }

/-- The state after threads 1 and 2 have each called `average("x", 1.0)` and thread 3
has called `average("x", 9007199254740992.0)`, on a cleared engine: the ledgers of
`bigSmallSmall`, held by other threads. -/
def smallSmallBig : Profiler :=
  { twoThreads with
    data_ :=
      [(1, { events := [], time := [],
             avg := [("x", { total := 1, totalSqr := 1, parts := 1 })] }),
       (2, { events := [], time := [],
             avg := [("x", { total := 1, totalSqr := 1, parts := 1 })] }),
       (3, { events := [], time := [],
             avg := [("x", { total := 9007199254740992,
                             totalSqr := 81129638414606681695789005144064, parts := 1 })] })] }

/-- The state after six threads have each called `end("b")`, with no `begin` before it,
on a cleared engine at the clock time 1700000000000000000 (nanoseconds since the epoch,
in November 2023). -/
def sixEnds : Profiler :=
  (twoThreads.clear 0).run
    [Call.end_ 1 1700000000000000000 "b", Call.end_ 2 1700000000000000000 "b",
     Call.end_ 3 1700000000000000000 "b", Call.end_ 4 1700000000000000000 "b",
     Call.end_ 5 1700000000000000000 "b", Call.end_ 6 1700000000000000000 "b"]

/-- The state after thread 1 has called `event("task", 4294967295)` (the largest
`unsigned int`) `2 ^ 32 + 1` times on a cleared engine. -/
def counterAtMax : Profiler :=
  (twoThreads.clear 0).runEvents (List.replicate (2 ^ 32 + 1) (1, "task", 4294967295))

/-- The `std::map` invariant of the three maps of a `PerThread`. -/
def PerThread.WF (t : PerThread) : Prop :=
  StdMap.WF t.events ∧ StdMap.WF t.avg ∧ StdMap.WF t.time

/-- The `std::map` invariant of `data_` and of the maps of every thread in it. -/
def Profiler.WF (p : Profiler) : Prop :=
  StdMap.WF p.data_ ∧ ∀ it ∈ p.data_, it.2.WF

/-- The range of `time::duration`: every stored `shortest` is at most
`time::duration::max()` and every stored `longest` is at least `time::duration::min()`. -/
def Profiler.InRange (p : Profiler) : Prop :=
  ∀ it ∈ p.data_, ∀ e ∈ it.2.time, e.2.shortest ≤ durationMax ∧ durationMin ≤ e.2.longest

/-! ## Lemmas on `std::map` -/

theorem lexLess_irrefl (a : List Char) : lexLess a a = false := by
  induction a with
  | nil => rfl
  | cons x xs ih => simp [lexLess, ih]

theorem lexLess_trans (a b c : List Char) (hab : lexLess a b = true)
    (hbc : lexLess b c = true) : lexLess a c = true := by
  induction a generalizing b c with
  | nil =>
    cases b with
    | nil => simp [lexLess] at hab
    | cons y ys =>
      cases c with
      | nil => simp [lexLess] at hbc
      | cons z zs => simp [lexLess]
  | cons x xs ih =>
    cases b with
    | nil => simp [lexLess] at hab
    | cons y ys =>
      cases c with
      | nil => simp [lexLess] at hbc
      | cons z zs =>
        simp only [lexLess] at hab hbc ⊢
        split_ifs at hab hbc ⊢ <;> first | rfl | omega | exact ih _ _ hab hbc

theorem lexLess_total (a b : List Char) : lexLess a b = true ∨ a = b ∨ lexLess b a = true := by
  induction a generalizing b with
  | nil =>
    cases b with
    | nil => simp
    | cons y ys => simp [lexLess]
  | cons x xs ih =>
    cases b with
    | nil => simp [lexLess]
    | cons y ys =>
      simp only [lexLess]
      by_cases h1 : x.toNat < y.toNat
      · simp [h1]
      · by_cases h2 : y.toNat < x.toNat
        · simp [h1, h2]
        · have hxy : x = y := by
            apply Char.ext
            apply UInt32.ext
            have : x.toNat = y.toNat := by omega
            simpa [Char.toNat, UInt32.toNat] using this
          subst hxy
          simp only [h1, if_false]
          rcases ih ys with h | h | h
          · exact Or.inl h
          · exact Or.inr (Or.inl (by rw [h]))
          · exact Or.inr (Or.inr h)

instance lawful_nat : StdLess.Lawful Nat where
  irrefl a := by simp [StdLess.less]
  trans a b c := by simp only [StdLess.less, decide_eq_true_eq]; omega
  total a b := by simp only [StdLess.less, decide_eq_true_eq]; omega

instance lawful_string : StdLess.Lawful String where
  irrefl a := lexLess_irrefl a.data
  trans a b c := lexLess_trans a.data b.data c.data
  total a b := by
    rcases lexLess_total a.data b.data with h | h | h
    · exact Or.inl h
    · exact Or.inr (Or.inl (String.ext h))
    · exact Or.inr (Or.inr h)

namespace StdMap

variable {K V W : Type}

theorem find_set [DecidableEq K] [StdLess K] (m : StdMap K V) (k : K) (v : V) (j : K) :
    find (set k v m) j = if j = k then some v else find m j := by
  induction m with
  | nil => simp [set, find]
  | cons e rest ih =>
    obtain ⟨k0, v0⟩ := e
    simp only [set]
    split_ifs with h1 h2 <;> simp_all [find]

theorem find_update [DecidableEq K] [StdLess K] (m : StdMap K V) (k : K) (d : V) (f : V → V) (j : K) :
    find (update m k d f) j = if j = k then some (f (sub m k d)) else find m j := by
  simp [update, find_set]

theorem find_eq_none_iff [DecidableEq K] (m : StdMap K V) (k : K) : find m k = none ↔ k ∉ keys m := by
  induction m with
  | nil => simp [find, keys]
  | cons e rest ih =>
    obtain ⟨k0, v0⟩ := e
    by_cases h : k = k0
    · simp [find, keys, h]
    · simp only [find, h, if_false, ih]
      simp [keys, h]

theorem keys_set [DecidableEq K] [StdLess K] (m : StdMap K V) (k : K) (v : V) (j : K) :
    j ∈ keys (set k v m) ↔ j = k ∨ j ∈ keys m := by
  have h := find_set m k v j
  by_cases hj : j = k
  · subst hj
    simp only [if_true] at h
    constructor
    · intro _; exact Or.inl rfl
    · intro _
      by_contra hc
      rw [← find_eq_none_iff] at hc
      simp [hc] at h
  · simp only [hj, if_false, false_or] at h ⊢
    constructor
    · intro h1
      by_contra hc
      rw [← find_eq_none_iff] at hc
      rw [hc, find_eq_none_iff] at h
      exact h h1
    · intro h1
      by_contra hc
      rw [← find_eq_none_iff] at hc
      rw [hc] at h
      exact (find_eq_none_iff m j).1 h.symm h1

theorem WF_nil [StdLess K] : WF ([] : StdMap K V) := by simp [WF, keys]

theorem WF_cons [StdLess K] (k : K) (v : V) (m : StdMap K V) :
    WF ((k, v) :: m) ↔ (∀ j ∈ keys m, StdLess.less k j = true) ∧ WF m := by
  simp [WF, keys]

theorem WF_set [DecidableEq K] [StdLess K] [StdLess.Lawful K] (m : StdMap K V) (k : K) (v : V) (h : WF m) :
    WF (set k v m) := by
  induction m with
  | nil => simp [set, WF, keys]
  | cons e rest ih =>
    obtain ⟨k0, v0⟩ := e
    rw [WF_cons] at h
    simp only [set]
    split_ifs with h1 h2
    · subst h1
      rw [WF_cons]
      exact h
    · rw [WF_cons, WF_cons]
      refine ⟨?_, h⟩
      intro j hj
      simp only [keys, List.map_cons, List.mem_cons] at hj
      rcases hj with hj | hj
      · rw [hj]; exact h2
      · exact StdLess.Lawful.trans _ _ _ h2 (h.1 j hj)
    · rw [WF_cons]
      refine ⟨?_, ih h.2⟩
      intro j hj
      rw [keys_set] at hj
      rcases hj with hj | hj
      · subst hj
        rcases StdLess.Lawful.total j k0 with h3 | h3 | h3
        · exact absurd h3 h2
        · exact absurd h3 h1
        · exact h3
      · exact h.1 j hj

theorem WF_update [DecidableEq K] [StdLess K] [StdLess.Lawful K] (m : StdMap K V) (k : K) (d : V) (f : V → V)
    (h : WF m) : WF (update m k d f) :=
  WF_set m k _ h

theorem foldEntry_append (op : V → W → V) (d : V) (acc : Option V) (ws vs : List W) :
    foldEntry op d acc (ws ++ vs) = foldEntry op d (foldEntry op d acc ws) vs := by
  simp [foldEntry, List.foldl_append]

theorem foldEntry_some (op : V → W → V) (d : V) (a : V) (ws : List W) :
    foldEntry op d (some a) ws = some (ws.foldl op a) := by
  induction ws generalizing a with
  | nil => rfl
  | cons w ws ih =>
    simp only [foldEntry, List.foldl_cons, Option.getD_some] at ih ⊢
    exact ih _

theorem foldEntry_eq (op : V → W → V) (d : V) (acc : Option V) (ws : List W) :
    foldEntry op d acc ws = if ws.isEmpty then acc else some (ws.foldl op (acc.getD d)) := by
  cases ws with
  | nil => rfl
  | cons w ws =>
    have h := foldEntry_some op d (op (acc.getD d) w) ws
    simp only [foldEntry, List.foldl_cons] at h ⊢
    simpa using h

theorem find_foldl_update [DecidableEq K] [StdLess K] (op : V → W → V) (d : V)
    (l : List (K × W)) (c : StdMap K V) (k : K) :
    find (l.foldl (fun c e => update c e.1 d fun v => op v e.2) c) k
      = foldEntry op d (find c k) ((l.filter fun e => e.1 = k).map Prod.snd) := by
  induction l generalizing c with
  | nil => rfl
  | cons e rest ih =>
    rw [List.foldl_cons, ih, find_update]
    by_cases h : e.1 = k
    · subst h
      simp [List.filter_cons, foldEntry, sub]
    · have h2 : ¬ k = e.1 := fun h3 => h h3.symm
      simp [List.filter_cons, h, h2]

theorem not_mem_keys_of_less [StdLess K] [StdLess.Lawful K] (m : StdMap K V) (k : K)
    (h : ∀ j ∈ keys m, StdLess.less k j = true) : k ∉ keys m := by
  intro hk
  have h1 := h k hk
  rw [StdLess.Lawful.irrefl] at h1
  exact Bool.false_ne_true h1

theorem filter_eq_nil_of_not_mem [DecidableEq K] (m : StdMap K V) (k : K) (h : k ∉ keys m) :
    (m.filter fun e => e.1 = k) = [] := by
  rw [List.filter_eq_nil_iff]
  intro e he
  simp only [decide_eq_true_eq]
  intro h1
  exact h (by rw [← h1]; exact List.mem_map_of_mem Prod.fst he)

theorem filter_ne_of_not_mem [DecidableEq K] (m : StdMap K V) (k : K) (h : k ∉ keys m) :
    (m.filter fun e => !decide (e.1 = k)) = m := by
  rw [List.filter_eq_self]
  intro e he
  simp only [Bool.not_eq_true', decide_eq_false_iff_not]
  intro h1
  exact h (by rw [← h1]; exact List.mem_map_of_mem Prod.fst he)

theorem filter_key_eq [DecidableEq K] [StdLess K] [StdLess.Lawful K] (m : StdMap K V)
    (k : K) (h : WF m) :
    ((m.filter fun e => e.1 = k).map Prod.snd) = (find m k).toList := by
  induction m with
  | nil => rfl
  | cons e rest ih =>
    obtain ⟨k0, v0⟩ := e
    rw [WF_cons] at h
    by_cases h1 : k = k0
    · subst h1
      have h2 := filter_eq_nil_of_not_mem rest k (not_mem_keys_of_less rest k h.1)
      simp [List.filter_cons, find, h2]
    · have h2 : ¬ k0 = k := fun h3 => h1 h3.symm
      simp [List.filter_cons, find, h1, h2, ih h.2]

theorem set_perm [DecidableEq K] [StdLess K] [StdLess.Lawful K] (m : StdMap K V)
    (k : K) (v : V) (h : WF m) :
    (set k v m).Perm ((k, v) :: m.filter fun e => !decide (e.1 = k)) := by
  induction m with
  | nil => simp [set]
  | cons e rest ih =>
    obtain ⟨k0, v0⟩ := e
    have h0 := h
    rw [WF_cons] at h
    simp only [set]
    split_ifs with h1 h2
    · subst h1
      have h3 := filter_ne_of_not_mem rest k (not_mem_keys_of_less rest k h.1)
      simp [List.filter_cons, h3]
    · have h3 : k ∉ keys ((k0, v0) :: rest) := by
        apply not_mem_keys_of_less
        intro j hj
        simp only [keys, List.map_cons, List.mem_cons] at hj
        rcases hj with hj | hj
        · rw [hj]; exact h2
        · exact StdLess.Lawful.trans _ _ _ h2 (h.1 j hj)
      rw [filter_ne_of_not_mem _ k h3]
    · have h3 : ¬ k0 = k := fun h4 => h1 h4.symm
      have h4 : (((k0, v0) :: rest).filter fun e => !decide (e.1 = k))
          = (k0, v0) :: rest.filter fun e => !decide (e.1 = k) := by
        simp [List.filter_cons, h3]
      rw [h4]
      exact ((ih h.2).cons (k0, v0)).trans (List.Perm.swap _ _ _)

theorem self_perm [DecidableEq K] [StdLess K] [StdLess.Lawful K] (m : StdMap K V)
    (k : K) (h : WF m) :
    m.Perm (((find m k).toList.map fun v => (k, v)) ++ m.filter fun e => !decide (e.1 = k)) := by
  induction m with
  | nil => simp [find]
  | cons e rest ih =>
    obtain ⟨k0, v0⟩ := e
    rw [WF_cons] at h
    by_cases h1 : k = k0
    · subst h1
      have h3 := filter_ne_of_not_mem rest k (not_mem_keys_of_less rest k h.1)
      simp [List.filter_cons, find, h3]
    · have h3 : ¬ k0 = k := fun h4 => h1 h4.symm
      have h4 : (((k0, v0) :: rest).filter fun e => !decide (e.1 = k))
          = (k0, v0) :: rest.filter fun e => !decide (e.1 = k) := by
        simp [List.filter_cons, h3]
      rw [h4]
      simp only [find, h1, if_false]
      exact ((ih h.2).cons (k0, v0)).trans List.perm_middle.symm

theorem mem_set [DecidableEq K] [StdLess K] (m : StdMap K V) (k : K) (v : V) (e : K × V)
    (h : e ∈ set k v m) : e = (k, v) ∨ e ∈ m := by
  induction m with
  | nil => simpa [set] using h
  | cons e0 rest ih =>
    obtain ⟨k0, v0⟩ := e0
    simp only [set] at h
    split_ifs at h with h1 h2
    · rcases List.mem_cons.1 h with h3 | h3
      · exact Or.inl h3
      · exact Or.inr (List.mem_cons_of_mem _ h3)
    · rcases List.mem_cons.1 h with h3 | h3
      · exact Or.inl h3
      · exact Or.inr h3
    · rcases List.mem_cons.1 h with h3 | h3
      · exact Or.inr (h3 ▸ List.mem_cons_self _ _)
      · rcases ih h3 with h4 | h4
        · exact Or.inl h4
        · exact Or.inr (List.mem_cons_of_mem _ h4)

theorem mem_of_find [DecidableEq K] (m : StdMap K V) (k : K) (v : V)
    (h : find m k = some v) : (k, v) ∈ m := by
  induction m with
  | nil => simp [find] at h
  | cons e0 rest ih =>
    obtain ⟨k0, v0⟩ := e0
    simp only [find] at h
    split_ifs at h with h1
    · simp only [Option.some.injEq] at h
      rw [h1, h]
      exact List.mem_cons_self _ _
    · exact List.mem_cons_of_mem _ (ih h)

theorem filterMap_update_perm [DecidableEq K] [StdLess K] [StdLess.Lawful K] {X : Type}
    (G : V → Option X) (d : V) (hG : G d = none) (m : StdMap K V) (h : WF m) (k : K)
    (f : V → V) :
    ∃ R : List X,
      ((update m k d f).filterMap fun e => G e.2).Perm ((G (f (sub m k d))).toList ++ R) ∧
      (m.filterMap fun e => G e.2).Perm ((G (sub m k d)).toList ++ R) := by
  refine ⟨(m.filter fun e => !decide (e.1 = k)).filterMap fun e => G e.2, ?_, ?_⟩
  · have h1 := (set_perm m k (f (sub m k d)) h).filterMap fun e => G e.2
    refine h1.trans ?_
    cases hv : G (f (sub m k d)) <;> simp [List.filterMap_cons, hv]
  · have h1 := (self_perm m k h).filterMap fun e => G e.2
    refine h1.trans ?_
    cases hv : find m k <;> simp [sub, hv, hG, List.filterMap_append]
    rename_i v
    cases hw : G v <;> simp [List.filterMap_cons, hw]

theorem find_cons_of_less [DecidableEq K] [StdLess K] [StdLess.Lawful K] (k0 : K) (v0 : V)
    (m : StdMap K V) (h : WF ((k0, v0) :: m)) (k : K) (hk : StdLess.less k k0 = true) :
    find ((k0, v0) :: m) k = none := by
  rw [find_eq_none_iff]
  rw [WF_cons] at h
  intro hmem
  simp only [keys, List.map_cons, List.mem_cons] at hmem
  rcases hmem with h1 | h1
  · rw [h1, StdLess.Lawful.irrefl] at hk
    exact Bool.false_ne_true hk
  · have h2 := StdLess.Lawful.trans _ _ _ hk (h.1 k h1)
    rw [StdLess.Lawful.irrefl] at h2
    exact Bool.false_ne_true h2

/-- Two maps with the same lookups are the same map. -/
theorem ext_of_find [DecidableEq K] [StdLess K] [StdLess.Lawful K] (m1 m2 : StdMap K V)
    (h1 : WF m1) (h2 : WF m2) (h : ∀ k, find m1 k = find m2 k) : m1 = m2 := by
  induction m1 generalizing m2 with
  | nil =>
    cases m2 with
    | nil => rfl
    | cons e2 r2 =>
      have h3 := h e2.1
      simp [find] at h3
  | cons e1 r1 ih =>
    obtain ⟨k1, v1⟩ := e1
    cases m2 with
    | nil =>
      have h3 := h k1
      simp [find] at h3
    | cons e2 r2 =>
      obtain ⟨k2, v2⟩ := e2
      have hk : k1 = k2 := by
        rcases StdLess.Lawful.total k1 k2 with h3 | h3 | h3
        · have h4 := find_cons_of_less k2 v2 r2 h2 k1 h3
          rw [← h] at h4
          simp [find] at h4
        · exact h3
        · have h4 := find_cons_of_less k1 v1 r1 h1 k2 h3
          rw [h] at h4
          simp [find] at h4
      subst hk
      have hv : v1 = v2 := by
        have h3 := h k1
        simpa [find] using h3
      subst hv
      have hr : r1 = r2 := by
        rw [WF_cons] at h1 h2
        apply ih r2 h1.2 h2.2
        intro k
        by_cases hkk : k = k1
        · subst hkk
          rw [(find_eq_none_iff r1 k).2 (not_mem_keys_of_less r1 k h1.1),
            (find_eq_none_iff r2 k).2 (not_mem_keys_of_less r2 k h2.1)]
        · have h3 := h k
          simpa [find, hkk] using h3
      rw [hr]

theorem WF_foldl_update [DecidableEq K] [StdLess K] [StdLess.Lawful K] (op : V → W → V)
    (d : V) (l : List (K × W)) (c : StdMap K V) (h : WF c) :
    WF (l.foldl (fun c e => update c e.1 d fun v => op v e.2) c) := by
  induction l generalizing c with
  | nil => exact h
  | cons e rest ih => exact ih _ (WF_update _ _ _ _ h)

theorem foldEntry_perm (op : V → W → V) (d : V) (acc : Option V) (ws vs : List W)
    (h : ws.Perm vs) (hop : ∀ (z : V) (x y : W), op (op z x) y = op (op z y) x) :
    foldEntry op d acc ws = foldEntry op d acc vs := by
  rw [foldEntry_eq, foldEntry_eq, h.isEmpty_eq, h.foldl_eq' fun x _ y _ z => hop z x y]

theorem flatMap_toList_eq_filterMap {A B : Type} (l : List A) (F : A → List B)
    (G : A → Option B) (h : ∀ a ∈ l, F a = (G a).toList) : l.flatMap F = l.filterMap G := by
  induction l with
  | nil => rfl
  | cons a rest ih =>
    have h1 := h a (List.mem_cons_self _ _)
    have h2 := ih fun b hb => h b (List.mem_cons_of_mem _ hb)
    rw [List.flatMap_cons, h1, h2]
    cases hG : G a <;> simp [List.filterMap_cons, hG]

end StdMap

/-! ## The merge `totalThreadData` -/

namespace Profiler

open StdMap

theorem foldl_addEvent (l : List (String × Nat)) (c : PerThread) :
    l.foldl addEvent c
      = { c with events := (l.foldl
            (fun m e => update m e.1 0 (fun v => (v + e.2) % 2 ^ 64)) c.events) } := by
  induction l generalizing c with
  | nil => rfl
  | cons e rest ih => rw [List.foldl_cons, ih]; rfl

theorem foldl_addAvg (l : List (String × AvgInfo)) (c : PerThread) :
    l.foldl addAvg c
      = { c with avg := (l.foldl
            (fun m e => update m e.1 AvgInfo.zero (fun v => mergeAvg v e.2)) c.avg) } := by
  induction l generalizing c with
  | nil => rfl
  | cons e rest ih => rw [List.foldl_cons, ih]; rfl

theorem foldl_addTime (l : List (String × TimeInfo)) (c : PerThread) :
    l.foldl addTime c
      = { c with time := (l.foldl
            (fun m e => update m e.1 TimeInfo.init (fun v => mergeTime v e.2)) c.time) } := by
  induction l generalizing c with
  | nil => rfl
  | cons e rest ih => rw [List.foldl_cons, ih]; rfl

theorem addThread_events (c : PerThread) (it : Nat × PerThread) :
    (addThread c it).events
      = it.2.events.foldl (fun m e => update m e.1 0 fun v => (v + e.2) % 2 ^ 64) c.events := by
  simp [addThread, foldl_addEvent, foldl_addAvg, foldl_addTime]

theorem addThread_avg (c : PerThread) (it : Nat × PerThread) :
    (addThread c it).avg
      = it.2.avg.foldl (fun m e => update m e.1 AvgInfo.zero fun v => mergeAvg v e.2) c.avg := by
  simp [addThread, foldl_addEvent, foldl_addAvg, foldl_addTime]

theorem addThread_time (c : PerThread) (it : Nat × PerThread) :
    (addThread c it).time
      = it.2.time.foldl (fun m e => update m e.1 TimeInfo.init fun v => mergeTime v e.2)
          c.time := by
  simp [addThread, foldl_addEvent, foldl_addAvg, foldl_addTime]

theorem find_merge_events (data : List (Nat × PerThread)) (c : PerThread) (k : String) :
    find (data.foldl addThread c).events k
      = foldEntry (fun v w => (v + w) % 2 ^ 64) 0 (find c.events k)
          (data.flatMap fun it => (it.2.events.filter fun e => e.1 = k).map Prod.snd) := by
  induction data generalizing c with
  | nil => rfl
  | cons it rest ih =>
    rw [List.foldl_cons, ih, addThread_events, find_foldl_update (fun v w => (v + w) % 2 ^ 64),
      List.flatMap_cons, foldEntry_append]

theorem find_merge_avg (data : List (Nat × PerThread)) (c : PerThread) (k : String) :
    find (data.foldl addThread c).avg k
      = foldEntry mergeAvg AvgInfo.zero (find c.avg k)
          (data.flatMap fun it => (it.2.avg.filter fun e => e.1 = k).map Prod.snd) := by
  induction data generalizing c with
  | nil => rfl
  | cons it rest ih =>
    rw [List.foldl_cons, ih, addThread_avg, find_foldl_update mergeAvg,
      List.flatMap_cons, foldEntry_append]

theorem find_merge_time (data : List (Nat × PerThread)) (c : PerThread) (k : String) :
    find (data.foldl addThread c).time k
      = foldEntry mergeTime TimeInfo.init (find c.time k)
          (data.flatMap fun it => (it.2.time.filter fun e => e.1 = k).map Prod.snd) := by
  induction data generalizing c with
  | nil => rfl
  | cons it rest ih =>
    rw [List.foldl_cons, ih, addThread_time, find_foldl_update mergeTime,
      List.flatMap_cons, foldEntry_append]

theorem find_total_events (p : Profiler) (h : ∀ it ∈ p.data_, it.2.WF) (k : String) :
    find p.totalThreadData.events k
      = foldEntry (fun v w => (v + w) % 2 ^ 64) 0 none (p.eventsOf k) := by
  rw [totalThreadData, find_merge_events, eventsOf]
  congr 1
  exact flatMap_toList_eq_filterMap _ _ _ fun it hit => filter_key_eq _ k (h it hit).1

theorem find_total_avg (p : Profiler) (h : ∀ it ∈ p.data_, it.2.WF) (k : String) :
    find p.totalThreadData.avg k = foldEntry mergeAvg AvgInfo.zero none (p.avgsOf k) := by
  rw [totalThreadData, find_merge_avg, avgsOf]
  congr 1
  exact flatMap_toList_eq_filterMap _ _ _ fun it hit => filter_key_eq _ k (h it hit).2.1

theorem find_total_time (p : Profiler) (h : ∀ it ∈ p.data_, it.2.WF) (k : String) :
    find p.totalThreadData.time k = foldEntry mergeTime TimeInfo.init none (p.timesOf k) := by
  rw [totalThreadData, find_merge_time, timesOf]
  congr 1
  exact flatMap_toList_eq_filterMap _ _ _ fun it hit => filter_key_eq _ k (h it hit).2.2

/-! ## The invariant of `std::map` is kept by every operation -/

theorem WF_updateThread (p : Profiler) (tid : Nat) (f : PerThread → PerThread)
    (hf : ∀ t : PerThread, t.WF → (f t).WF) (hp : p.WF) :
    Profiler.WF { p with data_ := p.data_.update tid PerThread.empty f } := by
  refine ⟨WF_update _ _ _ _ hp.1, ?_⟩
  intro it hit
  rcases mem_set _ _ _ _ hit with h1 | h1
  · rw [h1]
    apply hf
    unfold sub
    cases hv : find p.data_ tid with
    | none => exact ⟨WF_nil, WF_nil, WF_nil⟩
    | some v => exact hp.2 _ (mem_of_find _ _ _ hv)
  · exact hp.2 it h1

theorem WF_event (p : Profiler) (tid : Nat) (name : String) (n : Nat) (hp : p.WF) :
    (p.event tid name n).WF :=
  WF_updateThread p tid _
    (fun _ ht => ⟨by unfold PerThread.event; dsimp only; exact WF_update _ _ _ _ ht.1, ht.2.1, ht.2.2⟩) hp

theorem WF_average (p : Profiler) (tid : Nat) (name : String) (v : ℚ) (hp : p.WF) :
    (p.average tid name v).WF :=
  WF_updateThread p tid _
    (fun _ ht => ⟨ht.1, by unfold PerThread.average; dsimp only; exact WF_update _ _ _ _ ht.2.1, ht.2.2⟩) hp

theorem WF_begin (p : Profiler) (tid : Nat) (now : Int) (name : String) (hp : p.WF) :
    (p.begin tid now name).WF :=
  WF_updateThread p tid _
    (fun _ ht => ⟨ht.1, ht.2.1, by unfold PerThread.begin; dsimp only; exact WF_update _ _ _ _ ht.2.2⟩) hp

theorem WF_end (p : Profiler) (tid : Nat) (now : Int) (name : String) (hp : p.WF) :
    (p.end_ tid now name).WF :=
  WF_updateThread p tid _
    (fun _ ht => ⟨ht.1, ht.2.1, by unfold PerThread.end_; dsimp only; exact WF_update _ _ _ _ ht.2.2⟩) hp

theorem WF_clear (p : Profiler) (now : Int) : (p.clear now).WF := by
  unfold clear
  simp only
  split_ifs <;> exact ⟨WF_nil, fun it hit => absurd hit (List.not_mem_nil _)⟩

theorem WF_start (p : Profiler) (now : Int) (hp : p.WF) : (p.start now).WF := by
  unfold start
  split_ifs
  · exact hp
  · exact hp

theorem WF_stop (p : Profiler) (now : Int) (hp : p.WF) : (p.stop now).WF := by
  unfold stop
  split_ifs
  · exact hp
  · exact hp

theorem clear_data (p : Profiler) (now : Int) : (p.clear now).data_ = [] := by
  unfold clear
  simp only
  split_ifs <;> rfl

/-! ## Event counters -/

theorem key_injective (p : Profiler) (a b : String) (h : p.key a = p.key b) : a = b := by
  unfold key at h
  split_ifs at h
  · apply String.ext
    have h1 := congrArg String.data h
    rw [String.data_append, String.data_append] at h1
    exact List.append_cancel_left h1
  · exact h

theorem eventsOf_event (p : Profiler) (hp : p.WF) (tid : Nat) (name : String) (n : Nat)
    (k : String) :
    ∃ (R : List Nat) (old : Option Nat),
      ((p.event tid name n).eventsOf k).Perm
        ((if k = p.key name then some ((old.getD 0 + n) % 2 ^ 64) else old).toList ++ R) ∧
      (p.eventsOf k).Perm (old.toList ++ R) := by
  obtain ⟨R, h1, h2⟩ := filterMap_update_perm (fun t : PerThread => find t.events k)
    PerThread.empty rfl p.data_ hp.1 tid
    (fun t => t.event (p.key name) n)
  refine ⟨R, find (sub p.data_ tid PerThread.empty).events k, ?_, h2⟩
  simp only [PerThread.event, find_update] at h1
  by_cases hk : k = p.key name
  · subst hk
    simpa [eventsOf, event, sub] using h1
  · simpa [eventsOf, event, hk] using h1

theorem eventsOf_event_sum (p : Profiler) (hp : p.WF) (tid : Nat) (name : String) (n : Nat)
    (k : String) :
    ((p.event tid name n).eventsOf k).sum % 2 ^ 64
      = ((p.eventsOf k).sum + if k = p.key name then n else 0) % 2 ^ 64 := by
  obtain ⟨R, old, h1, h2⟩ := eventsOf_event p hp tid name n k
  rw [h1.sum_eq, h2.sum_eq]
  by_cases hk : k = p.key name
  · cases old <;> simp [hk] <;> omega
  · simp [hk]

theorem eventsOf_event_nil (p : Profiler) (hp : p.WF) (tid : Nat) (name : String) (n : Nat)
    (k : String) :
    (p.event tid name n).eventsOf k = [] ↔ p.eventsOf k = [] ∧ k ≠ p.key name := by
  obtain ⟨R, old, h1, h2⟩ := eventsOf_event p hp tid name n k
  rw [← List.perm_nil, ← @List.perm_nil _ (p.eventsOf k)]
  by_cases hk : k = p.key name
  · simp only [hk, if_true, ne_eq, not_true_eq_false, and_false, iff_false]
    intro h3
    have h4 := (h3.symm.trans (hk ▸ h1)).length_eq
    simp at h4
  · simp only [hk, if_false, ne_eq, not_false_eq_true, and_true] at h1 ⊢
    exact ⟨fun h3 => h2.trans (h1.symm.trans h3), fun h3 => h1.trans (h2.symm.trans h3)⟩

theorem WF_runEvents (p : Profiler) (hp : p.WF) (calls : List (Nat × String × Nat)) :
    (p.runEvents calls).WF := by
  induction calls generalizing p with
  | nil => exact hp
  | cons c rest ih => exact ih _ (WF_event p c.1 c.2.1 c.2.2 hp)

theorem runEvents_sum (p : Profiler) (hp : p.WF) (calls : List (Nat × String × Nat))
    (k : String) :
    ((p.runEvents calls).eventsOf k).sum % 2 ^ 64
      = ((p.eventsOf k).sum
          + ((calls.filter fun c => p.key c.2.1 = k).map fun c => c.2.2).sum) % 2 ^ 64 := by
  induction calls generalizing p with
  | nil => simp [runEvents]
  | cons c rest ih =>
    have h1 := ih (p.event c.1 c.2.1 c.2.2) (WF_event p c.1 c.2.1 c.2.2 hp)
    have h2 := eventsOf_event_sum p hp c.1 c.2.1 c.2.2 k
    have h3 : ∀ s, (p.event c.1 c.2.1 c.2.2).key s = p.key s := fun _ => rfl
    simp only [h3] at h1
    simp only [runEvents, List.foldl_cons] at h1 ⊢
    rw [h1]
    by_cases hk : p.key c.2.1 = k
    · subst hk
      simp only [List.filter_cons, decide_True, if_true, List.map_cons, List.sum_cons]
      simp only [if_true] at h2
      omega
    · have hk2 : ¬ k = p.key c.2.1 := fun h => hk h.symm
      simp only [List.filter_cons, hk, decide_False]
      simp only [hk2, if_false, Nat.add_zero] at h2
      simp only [Bool.false_eq_true, if_false]
      omega

theorem runEvents_nil (p : Profiler) (hp : p.WF) (calls : List (Nat × String × Nat))
    (k : String) :
    (p.runEvents calls).eventsOf k = [] ↔
      p.eventsOf k = [] ∧ ∀ c ∈ calls, p.key c.2.1 ≠ k := by
  induction calls generalizing p with
  | nil => simp [runEvents]
  | cons c rest ih =>
    have h1 := ih (p.event c.1 c.2.1 c.2.2) (WF_event p c.1 c.2.1 c.2.2 hp)
    have h2 := eventsOf_event_nil p hp c.1 c.2.1 c.2.2 k
    have h3 : ∀ s, (p.event c.1 c.2.1 c.2.2).key s = p.key s := fun _ => rfl
    simp only [h3] at h1
    simp only [runEvents, List.foldl_cons] at h1 ⊢
    rw [h1, h2]
    constructor
    · rintro ⟨⟨h4, h5⟩, h6⟩
      refine ⟨h4, ?_⟩
      intro c1 hc1
      rcases List.mem_cons.1 hc1 with h7 | h7
      · rw [h7]; exact fun h8 => h5 h8.symm
      · exact h6 c1 h7
    · rintro ⟨h4, h5⟩
      exact ⟨⟨h4, fun h8 => h5 c (List.mem_cons_self _ _) h8.symm⟩,
        fun c1 hc1 => h5 c1 (List.mem_cons_of_mem _ hc1)⟩

theorem foldEntry_add_nat (ws : List Nat) :
    foldEntry (fun v w => (v + w) % 2 ^ 64) 0 none ws
      = if ws.isEmpty then none else some (ws.sum % 2 ^ 64) := by
  rw [foldEntry_eq]
  have h : ∀ (l : List Nat) (a : Nat),
      l.foldl (fun v w => (v + w) % 2 ^ 64) (a % 2 ^ 64) = (a + l.sum) % 2 ^ 64 := by
    intro l
    induction l with
    | nil => simp
    | cons x xs ih =>
      intro a
      have h1 : (a % 2 ^ 64 + x) % 2 ^ 64 = (a + x) % 2 ^ 64 := by omega
      rw [List.foldl_cons, h1, ih, List.sum_cons, Nat.add_assoc]
  have h0 := h ws 0
  simp only [Nat.zero_mod, Nat.zero_add] at h0
  simp only [Option.getD_none, h0]

theorem events_merged (q : Profiler) (now : Int)
    (calls : List (Nat × String × Nat)) (name : String) :
    (find ((q.clear now).runEvents calls).totalThreadData.events ((q.clear now).key name)
      = if name ∈ calls.map (fun c => c.2.1)
        then some (((calls.filter fun c => c.2.1 = name).map fun c => c.2.2).sum % 2 ^ 64)
        else none) ∧
    ∀ k : String, (∀ c ∈ calls, (q.clear now).key c.2.1 ≠ k) →
      find ((q.clear now).runEvents calls).totalThreadData.events k = none := by
  have hp := WF_clear q now
  have hd := clear_data q now
  have hnil : ∀ k, (q.clear now).eventsOf k = [] := by intro k; simp [eventsOf, hd]
  have hfind : ∀ k, find ((q.clear now).runEvents calls).totalThreadData.events k
      = if (((q.clear now).runEvents calls).eventsOf k).isEmpty then none
        else some ((((q.clear now).runEvents calls).eventsOf k).sum % 2 ^ 64) := by
    intro k
    rw [find_total_events _ (WF_runEvents _ hp calls).2, foldEntry_add_nat]
  constructor
  · rw [hfind]
    have h1 := runEvents_nil _ hp calls ((q.clear now).key name)
    have h2 := runEvents_sum _ hp calls ((q.clear now).key name)
    have h3 : (calls.filter fun c => (q.clear now).key c.2.1 = (q.clear now).key name)
        = calls.filter fun c => c.2.1 = name := by
      apply List.filter_congr
      intro c _
      by_cases h : c.2.1 = name
      · simp [h]
      · have h4 : ¬ (q.clear now).key c.2.1 = (q.clear now).key name :=
          fun h5 => h (key_injective _ _ _ h5)
        simp [h, h4]
    rw [h3, hnil, List.sum_nil, Nat.zero_add] at h2
    by_cases hm : name ∈ calls.map fun c => c.2.1
    · have h4 : ¬ ((q.clear now).runEvents calls).eventsOf ((q.clear now).key name) = [] := by
        rw [h1]
        rintro ⟨_, h5⟩
        obtain ⟨c, hc, hcn⟩ := List.mem_map.1 hm
        exact h5 c hc (by rw [hcn])
      simp only [List.isEmpty_iff, h4, if_false, hm, if_true, h2]
    · have h4 : ((q.clear now).runEvents calls).eventsOf ((q.clear now).key name) = [] := by
        rw [h1]
        refine ⟨hnil _, ?_⟩
        intro c hc h5
        exact hm (List.mem_map.2 ⟨c, hc, key_injective _ _ _ h5⟩)
      simp [hm, h4]
  · intro k hk
    rw [hfind]
    have h1 := (runEvents_nil _ hp calls k).2 ⟨hnil k, hk⟩
    simp [h1]

/-- C1, as amended: starting from a cleared engine, after any sequence of `event(name, k)`
calls made by any threads in any interleaving, the merged ledger of `totalThreadData`
holds under the key of `name` the sum of all `k` passed for `name` reduced modulo
`2 ^ 64`, the width of the `unsigned long` counter, when `name` was passed at least once
(so the sum itself when it is below `2 ^ 64`), and holds no entry for a name that was
never passed (nor under any key that no call used). -/
theorem totalThreadData_events_sum (q : Profiler) (now : Int)
    (calls : List (Nat × String × Nat)) (name : String) :
    (find ((q.clear now).runEvents calls).totalThreadData.events ((q.clear now).key name)
      = if name ∈ calls.map (fun c => c.2.1)
        then some (((calls.filter fun c => c.2.1 = name).map fun c => c.2.2).sum % 2 ^ 64)
        else none) ∧
    (name ∈ calls.map (fun c => c.2.1) →
      ((calls.filter fun c => c.2.1 = name).map fun c => c.2.2).sum < 2 ^ 64 →
      find ((q.clear now).runEvents calls).totalThreadData.events ((q.clear now).key name)
        = some ((calls.filter fun c => c.2.1 = name).map fun c => c.2.2).sum) ∧
    ∀ k : String, (∀ c ∈ calls, (q.clear now).key c.2.1 ≠ k) →
      find ((q.clear now).runEvents calls).totalThreadData.events k = none := by
  have h := events_merged q now calls name
  refine ⟨h.1, ?_, h.2⟩
  intro hm hlt
  rw [h.1, if_pos hm, Nat.mod_eq_of_lt hlt]

/-- C1 on the scenario of three threads that each call `event("task", 1)` ten times,
interleaved thread by thread: the merged ledger reports `task: 30`. -/
theorem totalThreadData_events_sum_scenario :
    find ((twoThreads.clear 0).runEvents
        (List.replicate 10 [(1, "task", 1), (2, "task", 1), (3, "task", 1)]).flatten
      ).totalThreadData.events "task" = some 30 :=
  (totalThreadData_events_sum twoThreads 0
    (List.replicate 10 [(1, "task", 1), (2, "task", 1), (3, "task", 1)]).flatten "task").2.1
    (by decide) (by decide)

/-- C1 as first stated fails: after `2 ^ 32 + 2` calls `event("x", 4294967295)` by one
thread on a cleared engine the amounts passed for "x" sum to
`18446744078004518910`, which is `2 ^ 64` or more, and the merged counter is
`4294967294`. -/
theorem totalThreadData_events_sum_wraps :
    find ((twoThreads.clear 0).runEvents
        (List.replicate (2 ^ 32 + 2) (1, "x", 4294967295))).totalThreadData.events "x"
      = some 4294967294 ∧
    (((List.replicate (2 ^ 32 + 2) ((1, "x", 4294967295) : Nat × String × Nat)).filter
      fun c => c.2.1 = "x").map fun c => c.2.2).sum = 18446744078004518910 := by
  have hs : (((List.replicate (2 ^ 32 + 2) ((1, "x", 4294967295) : Nat × String × Nat)).filter
      fun c => c.2.1 = "x").map fun c => c.2.2).sum = 18446744078004518910 := by
    rw [List.filter_replicate]
    simp only [decide_True, if_true, List.map_replicate, List.sum_replicate, smul_eq_mul]
    norm_num
  refine ⟨?_, hs⟩
  have h := (events_merged twoThreads 0 (List.replicate (2 ^ 32 + 2) (1, "x", 4294967295))
    "x").1
  have hm : "x" ∈ (List.replicate (2 ^ 32 + 2)
      ((1, "x", 4294967295) : Nat × String × Nat)).map (fun c => c.2.1) := by
    rw [List.map_replicate]
    exact List.mem_replicate.2 ⟨by norm_num, rfl⟩
  rw [if_pos hm, hs] at h
  exact h

/-! ## Running averages -/

theorem avgsOf_average (p : Profiler) (hp : p.WF) (tid : Nat) (name : String) (v : ℚ)
    (k : String) :
    ∃ (R : List AvgInfo) (old : Option AvgInfo),
      ((p.average tid name v).avgsOf k).Perm
        ((if k = p.key name then
            some { total := (old.getD AvgInfo.zero).total + v,
                   totalSqr := (old.getD AvgInfo.zero).totalSqr + v * v,
                   parts := (old.getD AvgInfo.zero).parts + 1 }
          else old).toList ++ R) ∧
      (p.avgsOf k).Perm (old.toList ++ R) := by
  obtain ⟨R, h1, h2⟩ := filterMap_update_perm (fun t : PerThread => find t.avg k)
    PerThread.empty rfl p.data_ hp.1 tid
    (fun t => t.average (p.key name) v)
  refine ⟨R, find (sub p.data_ tid PerThread.empty).avg k, ?_, h2⟩
  simp only [PerThread.average, find_update] at h1
  by_cases hk : k = p.key name
  · subst hk
    simpa [avgsOf, average, sub] using h1
  · simpa [avgsOf, average, hk] using h1

theorem avgsOf_average_sum (p : Profiler) (hp : p.WF) (tid : Nat) (name : String) (v : ℚ)
    (k : String) :
    (((p.average tid name v).avgsOf k).map fun a => (a.total, a.totalSqr, a.parts)).sum
      = ((p.avgsOf k).map fun a => (a.total, a.totalSqr, a.parts)).sum
        + if k = p.key name then (v, v * v, 1) else 0 := by
  obtain ⟨R, old, h1, h2⟩ := avgsOf_average p hp tid name v k
  rw [(h1.map _).sum_eq, (h2.map _).sum_eq]
  by_cases hk : k = p.key name
  · cases old with
    | none => simp [hk, AvgInfo.zero, add_comm]
    | some a =>
      simp only [hk, if_true, Option.getD_some, Option.toList_some, List.singleton_append,
        List.map_cons, List.sum_cons]
      ext <;> simp <;> ring
  · simp [hk]

theorem avgsOf_average_nil (p : Profiler) (hp : p.WF) (tid : Nat) (name : String) (v : ℚ)
    (k : String) :
    (p.average tid name v).avgsOf k = [] ↔ p.avgsOf k = [] ∧ k ≠ p.key name := by
  obtain ⟨R, old, h1, h2⟩ := avgsOf_average p hp tid name v k
  rw [← List.perm_nil, ← @List.perm_nil _ (p.avgsOf k)]
  by_cases hk : k = p.key name
  · simp only [hk, if_true, ne_eq, not_true_eq_false, and_false, iff_false]
    intro h3
    have h4 := (h3.symm.trans (hk ▸ h1)).length_eq
    simp at h4
  · simp only [hk, if_false, ne_eq, not_false_eq_true, and_true] at h1 ⊢
    exact ⟨fun h3 => h2.trans (h1.symm.trans h3), fun h3 => h1.trans (h2.symm.trans h3)⟩

theorem WF_runAverages (p : Profiler) (hp : p.WF) (calls : List (Nat × String × ℚ)) :
    (p.runAverages calls).WF := by
  induction calls generalizing p with
  | nil => exact hp
  | cons c rest ih => exact ih _ (WF_average p c.1 c.2.1 c.2.2 hp)

theorem runAverages_sum (p : Profiler) (hp : p.WF) (calls : List (Nat × String × ℚ))
    (k : String) :
    (((p.runAverages calls).avgsOf k).map fun a => (a.total, a.totalSqr, a.parts)).sum
      = ((p.avgsOf k).map fun a => (a.total, a.totalSqr, a.parts)).sum
        + ((calls.filter fun c => p.key c.2.1 = k).map
            fun c => (c.2.2, c.2.2 * c.2.2, 1)).sum := by
  induction calls generalizing p with
  | nil => simp [runAverages]
  | cons c rest ih =>
    have h1 := ih (p.average c.1 c.2.1 c.2.2) (WF_average p c.1 c.2.1 c.2.2 hp)
    have h2 := avgsOf_average_sum p hp c.1 c.2.1 c.2.2 k
    have h3 : ∀ s, (p.average c.1 c.2.1 c.2.2).key s = p.key s := fun _ => rfl
    simp only [h3] at h1
    simp only [runAverages, List.foldl_cons] at h1 ⊢
    rw [h1, h2]
    by_cases hk : p.key c.2.1 = k
    · have hk2 : k = p.key c.2.1 := hk.symm
      simp [List.filter_cons, hk, ← hk2, add_assoc]
    · have hk2 : ¬ k = p.key c.2.1 := fun h => hk h.symm
      simp [List.filter_cons, hk, hk2]

theorem runAverages_nil (p : Profiler) (hp : p.WF) (calls : List (Nat × String × ℚ))
    (k : String) :
    (p.runAverages calls).avgsOf k = [] ↔
      p.avgsOf k = [] ∧ ∀ c ∈ calls, p.key c.2.1 ≠ k := by
  induction calls generalizing p with
  | nil => simp [runAverages]
  | cons c rest ih =>
    have h1 := ih (p.average c.1 c.2.1 c.2.2) (WF_average p c.1 c.2.1 c.2.2 hp)
    have h2 := avgsOf_average_nil p hp c.1 c.2.1 c.2.2 k
    have h3 : ∀ s, (p.average c.1 c.2.1 c.2.2).key s = p.key s := fun _ => rfl
    simp only [h3] at h1
    simp only [runAverages, List.foldl_cons] at h1 ⊢
    rw [h1, h2]
    constructor
    · rintro ⟨⟨h4, h5⟩, h6⟩
      refine ⟨h4, ?_⟩
      intro c1 hc1
      rcases List.mem_cons.1 hc1 with h7 | h7
      · rw [h7]; exact fun h8 => h5 h8.symm
      · exact h6 c1 h7
    · rintro ⟨h4, h5⟩
      exact ⟨⟨h4, fun h8 => h5 c (List.mem_cons_self _ _) h8.symm⟩,
        fun c1 hc1 => h5 c1 (List.mem_cons_of_mem _ hc1)⟩

theorem foldl_mergeAvg (ws : List AvgInfo) (a : AvgInfo) :
    ws.foldl mergeAvg a
      = { total := a.total + (ws.map fun w => (w.total, w.totalSqr, w.parts)).sum.1,
          totalSqr := a.totalSqr + (ws.map fun w => (w.total, w.totalSqr, w.parts)).sum.2.1,
          parts := a.parts + (ws.map fun w => (w.total, w.totalSqr, w.parts)).sum.2.2 } := by
  induction ws generalizing a with
  | nil => simp
  | cons w ws ih =>
    rw [List.foldl_cons, ih]
    simp [mergeAvg, add_assoc]

theorem sum_samples (vs : List ℚ) :
    (vs.map fun v => (v, v * v, 1)).sum = (vs.sum, (vs.map fun v => v * v).sum, vs.length) := by
  induction vs with
  | nil => rfl
  | cons v vs ih =>
    rw [List.map_cons, List.sum_cons, ih]
    ext <;> simp [add_comm]

/-- C2: starting from a cleared engine, after any sequence of `average(name, v)` calls
made by any threads, the merged ledger of `totalThreadData` holds under the key of
`name` the entry with `parts` the number of calls for `name`, `total` the sum of their
`v` and `totalSqr` the sum of their `v * v` (no entry when there was no call for `name`);
so `total / parts` is the arithmetic mean of the `v`. Values are exact rationals. -/
theorem totalThreadData_avg_sums (q : Profiler) (now : Int)
    (calls : List (Nat × String × ℚ)) (name : String) :
    (find ((q.clear now).runAverages calls).totalThreadData.avg ((q.clear now).key name)
      = if name ∈ calls.map (fun c => c.2.1)
        then some
          { total := ((calls.filter fun c => c.2.1 = name).map fun c => c.2.2).sum,
            totalSqr := ((calls.filter fun c => c.2.1 = name).map fun c => c.2.2 * c.2.2).sum,
            parts := (calls.filter fun c => c.2.1 = name).length }
        else none) ∧
    ∀ e : AvgInfo,
      find ((q.clear now).runAverages calls).totalThreadData.avg ((q.clear now).key name)
        = some e →
      e.total / (e.parts : ℚ)
        = ((calls.filter fun c => c.2.1 = name).map fun c => c.2.2).sum
          / ((calls.filter fun c => c.2.1 = name).length : ℚ) := by
  have hp := WF_clear q now
  have hd := clear_data q now
  have hnil : (q.clear now).avgsOf ((q.clear now).key name) = [] := by simp [avgsOf, hd]
  have h1 := runAverages_nil _ hp calls ((q.clear now).key name)
  have h2 := runAverages_sum _ hp calls ((q.clear now).key name)
  have h3 : (calls.filter fun c => (q.clear now).key c.2.1 = (q.clear now).key name)
      = calls.filter fun c => c.2.1 = name := by
    apply List.filter_congr
    intro c _
    by_cases h : c.2.1 = name
    · simp [h]
    · have h4 : ¬ (q.clear now).key c.2.1 = (q.clear now).key name :=
        fun h5 => h (key_injective _ _ _ h5)
      simp [h, h4]
  have h6 := sum_samples ((calls.filter fun c => c.2.1 = name).map fun c => c.2.2)
  rw [List.map_map, List.map_map, List.length_map] at h6
  rw [h3, hnil, List.map_nil, List.sum_nil, zero_add] at h2
  have h7 : (fun c : Nat × String × ℚ => (c.2.2, c.2.2 * c.2.2, 1))
      = ((fun v : ℚ => (v, v * v, 1)) ∘ fun c : Nat × String × ℚ => c.2.2) := rfl
  rw [h7, h6] at h2
  have hfind : find ((q.clear now).runAverages calls).totalThreadData.avg
        ((q.clear now).key name)
      = if name ∈ calls.map (fun c => c.2.1)
        then some
          { total := ((calls.filter fun c => c.2.1 = name).map fun c => c.2.2).sum,
            totalSqr := ((calls.filter fun c => c.2.1 = name).map fun c => c.2.2 * c.2.2).sum,
            parts := (calls.filter fun c => c.2.1 = name).length }
        else none := by
    rw [find_total_avg _ (WF_runAverages _ hp calls).2, foldEntry_eq, foldl_mergeAvg, h2]
    by_cases hm : name ∈ calls.map fun c => c.2.1
    · have h4 : ¬ ((q.clear now).runAverages calls).avgsOf ((q.clear now).key name) = [] := by
        rw [h1]
        rintro ⟨_, h5⟩
        obtain ⟨c, hc, hcn⟩ := List.mem_map.1 hm
        exact h5 c hc (by rw [hcn])
      simp only [hm, h4, List.isEmpty_iff, if_true, if_false, Option.getD_none]
      simp [AvgInfo.zero, Function.comp_def]
    · have h4 : ((q.clear now).runAverages calls).avgsOf ((q.clear now).key name) = [] := by
        rw [h1]
        refine ⟨hnil, ?_⟩
        intro c hc h5
        exact hm (List.mem_map.2 ⟨c, hc, key_injective _ _ _ h5⟩)
      simp [hm, h4]
  refine ⟨hfind, ?_⟩
  intro e he
  rw [hfind] at he
  split_ifs at he
  simp only [Option.some.injEq] at he
  rw [← he]

/-- The example of C2: `average("x", 2.0)` then `average("x", 4.0)` on a cleared engine
gives count 2 and mean 3. -/
theorem totalThreadData_avg_sums_example :
    ∃ e : AvgInfo,
      find (((⟨[], TimeInfo.init, false, true, false, ""⟩ : Profiler).clear 0).runAverages
          [(1, "x", 2), (1, "x", 4)]).totalThreadData.avg "x" = some e ∧
      e.parts = 2 ∧ e.total / (e.parts : ℚ) = 3 := by
  have h := (totalThreadData_avg_sums ⟨[], TimeInfo.init, false, true, false, ""⟩ 0
    [(1, "x", 2), (1, "x", 4)] "x").1
  refine ⟨_, h.trans (if_pos (by simp)), ?_, ?_⟩
  · simp
  · norm_num

/-! ## Time blocks -/

theorem mergeTime_total (a w : TimeInfo) :
    (mergeTime a w).total = wrapDuration (a.total + w.total) := by
  unfold mergeTime; dsimp only; split_ifs <;> rfl

theorem wrapDuration_add (x y : Int) :
    wrapDuration (wrapDuration x + y) = wrapDuration (x + y) := by
  unfold wrapDuration
  omega

theorem wrapDuration_of_range (x : Int) (h1 : durationMin ≤ x) (h2 : x ≤ durationMax) :
    wrapDuration x = x := by
  unfold wrapDuration
  unfold durationMin at h1
  unfold durationMax at h2
  omega

theorem mergeTime_parts (a w : TimeInfo) : (mergeTime a w).parts = a.parts + w.parts := by
  unfold mergeTime; dsimp only; split_ifs <;> rfl

theorem mergeTime_start (a w : TimeInfo) : (mergeTime a w).start = a.start := by
  unfold mergeTime; dsimp only; split_ifs <;> rfl

theorem mergeTime_shortest (a w : TimeInfo) :
    (mergeTime a w).shortest = min a.shortest w.shortest := by
  unfold mergeTime; dsimp only
  split_ifs with h1 h2 h2 <;> dsimp only <;> omega

theorem mergeTime_longest (a w : TimeInfo) :
    (mergeTime a w).longest = max a.longest w.longest := by
  unfold mergeTime; dsimp only
  split_ifs with h1 h2 h2 <;> dsimp only at h2 ⊢ <;> omega

theorem foldl_mergeTime_total (ws : List TimeInfo) (a : TimeInfo) :
    (ws.foldl mergeTime a).total
      = if ws.isEmpty then a.total
        else wrapDuration (a.total + (ws.map fun w => w.total).sum) := by
  induction ws generalizing a with
  | nil => simp
  | cons w ws ih =>
    rw [List.foldl_cons, ih, mergeTime_total]
    cases ws with
    | nil => simp
    | cons v vs =>
      simp only [List.isEmpty_cons, Bool.false_eq_true, if_false, List.map_cons, List.sum_cons]
      rw [wrapDuration_add, add_assoc]

theorem foldl_mergeTime_parts (ws : List TimeInfo) (a : TimeInfo) :
    (ws.foldl mergeTime a).parts = a.parts + (ws.map fun w => w.parts).sum := by
  induction ws generalizing a with
  | nil => simp
  | cons w ws ih => rw [List.foldl_cons, ih, mergeTime_parts]; simp [Nat.add_assoc]

theorem foldl_mergeTime_start (ws : List TimeInfo) (a : TimeInfo) :
    (ws.foldl mergeTime a).start = a.start := by
  induction ws generalizing a with
  | nil => simp
  | cons w ws ih => rw [List.foldl_cons, ih, mergeTime_start]

theorem foldl_mergeTime_shortest_le (ws : List TimeInfo) (a : TimeInfo) :
    (ws.foldl mergeTime a).shortest ≤ a.shortest ∧
      ∀ w ∈ ws, (ws.foldl mergeTime a).shortest ≤ w.shortest := by
  induction ws generalizing a with
  | nil => simp
  | cons w ws ih =>
    rw [List.foldl_cons]
    have h1 := ih (mergeTime a w)
    rw [mergeTime_shortest] at h1
    refine ⟨le_trans h1.1 (min_le_left _ _), ?_⟩
    intro x hx
    rcases List.mem_cons.1 hx with h2 | h2
    · rw [h2]; exact le_trans h1.1 (min_le_right _ _)
    · exact h1.2 x h2

theorem foldl_mergeTime_shortest_mem (ws : List TimeInfo) (a : TimeInfo) :
    (ws.foldl mergeTime a).shortest = a.shortest ∨
      ∃ w ∈ ws, (ws.foldl mergeTime a).shortest = w.shortest := by
  induction ws generalizing a with
  | nil => simp
  | cons w ws ih =>
    rw [List.foldl_cons]
    rcases ih (mergeTime a w) with h1 | ⟨x, hx, h1⟩
    · rw [mergeTime_shortest] at h1
      rcases min_choice a.shortest w.shortest with h2 | h2
      · exact Or.inl (by rw [h1, h2])
      · exact Or.inr ⟨w, List.mem_cons_self _ _, by rw [h1, h2]⟩
    · exact Or.inr ⟨x, List.mem_cons_of_mem _ hx, h1⟩

theorem foldl_mergeTime_longest_le (ws : List TimeInfo) (a : TimeInfo) :
    a.longest ≤ (ws.foldl mergeTime a).longest ∧
      ∀ w ∈ ws, w.longest ≤ (ws.foldl mergeTime a).longest := by
  induction ws generalizing a with
  | nil => simp
  | cons w ws ih =>
    rw [List.foldl_cons]
    have h1 := ih (mergeTime a w)
    rw [mergeTime_longest] at h1
    refine ⟨le_trans (le_max_left _ _) h1.1, ?_⟩
    intro x hx
    rcases List.mem_cons.1 hx with h2 | h2
    · rw [h2]; exact le_trans (le_max_right _ _) h1.1
    · exact h1.2 x h2

theorem foldl_mergeTime_longest_mem (ws : List TimeInfo) (a : TimeInfo) :
    (ws.foldl mergeTime a).longest = a.longest ∨
      ∃ w ∈ ws, (ws.foldl mergeTime a).longest = w.longest := by
  induction ws generalizing a with
  | nil => simp
  | cons w ws ih =>
    rw [List.foldl_cons]
    rcases ih (mergeTime a w) with h1 | ⟨x, hx, h1⟩
    · rw [mergeTime_longest] at h1
      rcases max_choice a.longest w.longest with h2 | h2
      · exact Or.inl (by rw [h1, h2])
      · exact Or.inr ⟨w, List.mem_cons_self _ _, by rw [h1, h2]⟩
    · exact Or.inr ⟨x, List.mem_cons_of_mem _ hx, h1⟩

theorem timesOf_mem (p : Profiler) (k : String) (w : TimeInfo) (h : w ∈ p.timesOf k) :
    ∃ it ∈ p.data_, (k, w) ∈ it.2.time := by
  unfold timesOf at h
  obtain ⟨it, hit, hw⟩ := List.mem_filterMap.1 h
  exact ⟨it, hit, mem_of_find _ _ _ hw⟩

/-- C3, as amended: in every engine state, for every block name that at least one thread
has an entry for, the entry of the merged ledger of `totalThreadData` has `total` the
sum of the threads' totals reduced to the 64-bit range of `time::duration` (so the sum
itself when the sum lies in that range), `parts` the sum of their parts, `shortest` the
least of the `shortest` of the threads that have the entry, and `longest` the greatest
of their `longest`. -/
theorem totalThreadData_time_merge (p : Profiler) (hp : p.WF) (hr : p.InRange)
    (name : String) (h : p.timesOf name ≠ []) :
    ∃ tc : TimeInfo, find p.totalThreadData.time name = some tc ∧
      tc.total = wrapDuration ((p.timesOf name).map fun w => w.total).sum ∧
      (durationMin ≤ ((p.timesOf name).map fun w => w.total).sum →
        ((p.timesOf name).map fun w => w.total).sum ≤ durationMax →
        tc.total = ((p.timesOf name).map fun w => w.total).sum) ∧
      tc.parts = ((p.timesOf name).map fun w => w.parts).sum ∧
      ((∃ w ∈ p.timesOf name, tc.shortest = w.shortest) ∧
        ∀ w ∈ p.timesOf name, tc.shortest ≤ w.shortest) ∧
      ((∃ w ∈ p.timesOf name, tc.longest = w.longest) ∧
        ∀ w ∈ p.timesOf name, w.longest ≤ tc.longest) := by
  have htot : ((p.timesOf name).foldl mergeTime TimeInfo.init).total
      = wrapDuration ((p.timesOf name).map fun w => w.total).sum := by
    rw [foldl_mergeTime_total]
    simp [List.isEmpty_iff, h, TimeInfo.init]
  refine ⟨(p.timesOf name).foldl mergeTime TimeInfo.init, ?_, htot, ?_, ?_, ⟨?_, ?_⟩, ⟨?_, ?_⟩⟩
  · rw [find_total_time p hp.2, foldEntry_eq]
    simp [List.isEmpty_iff, h]
  · intro h1 h2
    rw [htot, wrapDuration_of_range _ h1 h2]
  · rw [foldl_mergeTime_parts]; simp [TimeInfo.init]
  · rcases foldl_mergeTime_shortest_mem (p.timesOf name) TimeInfo.init with h1 | h1
    · obtain ⟨w, ws, hw⟩ := List.exists_cons_of_ne_nil h
      have hmem : w ∈ p.timesOf name := by rw [hw]; exact List.mem_cons_self _ _
      obtain ⟨it, hit, he⟩ := timesOf_mem p name w hmem
      have h2 := (hr it hit _ he).1
      have h3 := (foldl_mergeTime_shortest_le (p.timesOf name) TimeInfo.init).2 w hmem
      refine ⟨w, hmem, ?_⟩
      rw [h1] at h3 ⊢
      exact le_antisymm h3 h2
    · exact h1
  · exact (foldl_mergeTime_shortest_le (p.timesOf name) TimeInfo.init).2
  · rcases foldl_mergeTime_longest_mem (p.timesOf name) TimeInfo.init with h1 | h1
    · obtain ⟨w, ws, hw⟩ := List.exists_cons_of_ne_nil h
      have hmem : w ∈ p.timesOf name := by rw [hw]; exact List.mem_cons_self _ _
      obtain ⟨it, hit, he⟩ := timesOf_mem p name w hmem
      have h2 := (hr it hit _ he).2
      have h3 := (foldl_mergeTime_longest_le (p.timesOf name) TimeInfo.init).2 w hmem
      refine ⟨w, hmem, ?_⟩
      rw [h1] at h3 ⊢
      exact le_antisymm h2 h3
    · exact h1
  · exact (foldl_mergeTime_longest_le (p.timesOf name) TimeInfo.init).2

theorem twoThreads_WF : twoThreads.WF := by
  simp [twoThreads, Profiler.WF, PerThread.WF, StdMap.WF, keys, StdLess.less]

theorem twoThreads_InRange : twoThreads.InRange := by
  simp [twoThreads, Profiler.InRange, durationMax, durationMin]

/-- C3 at the state `twoThreads` and the block "b": the totals 5 and 7 sum to 12, in
the range of `time::duration`, and the merged total is 12. -/
theorem totalThreadData_time_merge_witness :
    twoThreads.WF ∧ twoThreads.InRange ∧ twoThreads.timesOf "b" ≠ [] ∧
    ∃ tc : TimeInfo, find twoThreads.totalThreadData.time "b" = some tc ∧
      tc.total = 12 ∧
      tc.parts = ((twoThreads.timesOf "b").map fun w => w.parts).sum ∧
      ((∃ w ∈ twoThreads.timesOf "b", tc.shortest = w.shortest) ∧
        ∀ w ∈ twoThreads.timesOf "b", tc.shortest ≤ w.shortest) ∧
      ((∃ w ∈ twoThreads.timesOf "b", tc.longest = w.longest) ∧
        ∀ w ∈ twoThreads.timesOf "b", w.longest ≤ tc.longest) := by
  obtain ⟨tc, h1, _, h3, h4, h5, h6⟩ :=
    totalThreadData_time_merge twoThreads twoThreads_WF twoThreads_InRange "b" (by decide)
  exact ⟨twoThreads_WF, twoThreads_InRange, by decide, tc, h1,
    (h3 (by decide) (by decide)).trans (by decide), h4, h5, h6⟩

/-- C3 as first stated fails: in the state `sixEnds`, which satisfies the invariant of
`std::map` and the range of `time::duration`, the six totals of the block "b" sum to
`10200000000000000000`, more than `time::duration::max()`, and the merged total is
`-8246744073709551616`. -/
theorem totalThreadData_time_merge_overflow :
    sixEnds.WF ∧ sixEnds.InRange ∧ sixEnds.timesOf "b" ≠ [] ∧
    ((sixEnds.timesOf "b").map fun w => w.total).sum = 10200000000000000000 ∧
    ∃ tc : TimeInfo, find sixEnds.totalThreadData.time "b" = some tc ∧
      tc.total = -8246744073709551616 ∧
      tc.total ≠ ((sixEnds.timesOf "b").map fun w => w.total).sum := by
  have hd : sixEnds.data_
      = [(1, ⟨[], [], [("b", ⟨1700000000000000000, 1700000000000000000,
            1700000000000000000, 1, 0⟩)]⟩),
         (2, ⟨[], [], [("b", ⟨1700000000000000000, 1700000000000000000,
            1700000000000000000, 1, 0⟩)]⟩),
         (3, ⟨[], [], [("b", ⟨1700000000000000000, 1700000000000000000,
            1700000000000000000, 1, 0⟩)]⟩),
         (4, ⟨[], [], [("b", ⟨1700000000000000000, 1700000000000000000,
            1700000000000000000, 1, 0⟩)]⟩),
         (5, ⟨[], [], [("b", ⟨1700000000000000000, 1700000000000000000,
            1700000000000000000, 1, 0⟩)]⟩),
         (6, ⟨[], [], [("b", ⟨1700000000000000000, 1700000000000000000,
            1700000000000000000, 1, 0⟩)]⟩)] := by
    decide
  have hs : ((sixEnds.timesOf "b").map fun w => w.total).sum = 10200000000000000000 := by
    decide
  have ht : find sixEnds.totalThreadData.time "b"
      = some ⟨-8246744073709551616, 1700000000000000000, 1700000000000000000, 6, 0⟩ := by
    decide
  refine ⟨?_, ?_, by decide, hs, _, ht, rfl, ?_⟩
  · simp [Profiler.WF, hd, PerThread.WF, StdMap.WF, keys, StdLess.less]
  · simp [Profiler.InRange, hd, durationMax, durationMin]
  · rw [hs]
    decide

/-! ## The merge does not depend on the order of the threads -/

theorem WF_merge (data : List (Nat × PerThread)) (c : PerThread) (h : c.WF) :
    (data.foldl addThread c).WF := by
  induction data generalizing c with
  | nil => exact h
  | cons it rest ih =>
    apply ih
    refine ⟨?_, ?_, ?_⟩
    · rw [addThread_events]; exact WF_foldl_update (fun v w => (v + w) % 2 ^ 64) _ _ _ h.1
    · rw [addThread_avg]; exact WF_foldl_update mergeAvg _ _ _ h.2.1
    · rw [addThread_time]; exact WF_foldl_update mergeTime _ _ _ h.2.2

theorem mergeAvg_right_comm (z x y : AvgInfo) :
    mergeAvg (mergeAvg z x) y = mergeAvg (mergeAvg z y) x := by
  ext <;> simp only [mergeAvg] <;> ring

theorem mergeTime_right_comm (z x y : TimeInfo) :
    mergeTime (mergeTime z x) y = mergeTime (mergeTime z y) x := by
  ext
  · simp only [mergeTime_total, wrapDuration]; omega
  · simp only [mergeTime_shortest]; omega
  · simp only [mergeTime_longest]; omega
  · simp only [mergeTime_parts]; ring
  · simp only [mergeTime_start]

theorem merge_perm_exact (p : Profiler) (l : List (Nat × PerThread))
    (h : l.Perm p.data_) :
    totalThreadData { p with data_ := l } = totalThreadData p := by
  have hw0 : PerThread.empty.WF := ⟨WF_nil, WF_nil, WF_nil⟩
  have h1 := WF_merge l PerThread.empty hw0
  have h2 := WF_merge p.data_ PerThread.empty hw0
  have he : (totalThreadData { p with data_ := l }).events = (totalThreadData p).events := by
    apply ext_of_find _ _ h1.1 h2.1
    intro k
    rw [find_merge_events, find_merge_events]
    exact foldEntry_perm _ _ _ _ _ (h.flatMap_right _) fun z x y => by omega
  have ha : (totalThreadData { p with data_ := l }).avg = (totalThreadData p).avg := by
    apply ext_of_find _ _ h1.2.1 h2.2.1
    intro k
    rw [find_merge_avg, find_merge_avg]
    exact foldEntry_perm _ _ _ _ _ (h.flatMap_right _) mergeAvg_right_comm
  have ht : (totalThreadData { p with data_ := l }).time = (totalThreadData p).time := by
    apply ext_of_find _ _ h1.2.2 h2.2.2
    intro k
    rw [find_merge_time, find_merge_time]
    exact foldEntry_perm _ _ _ _ _ (h.flatMap_right _) mergeTime_right_comm
  cases hx : totalThreadData { p with data_ := l } with
  | mk e1 a1 t1 =>
    cases hy : totalThreadData p with
    | mk e2 a2 t2 =>
      rw [hx, hy] at he ha ht
      simp only at he ha ht
      rw [he, ha, ht]

theorem foldl_addAvgRounded (rnd : ℚ → ℚ) (l : List (String × AvgInfo)) (c : PerThread) :
    l.foldl (addAvgRounded rnd) c
      = { c with avg := (l.foldl
            (fun m e => update m e.1 AvgInfo.zero (fun v => mergeAvgRounded rnd v e.2)) c.avg) } := by
  induction l generalizing c with
  | nil => rfl
  | cons e rest ih => rw [List.foldl_cons, ih]; rfl

theorem addThreadRounded_events (rnd : ℚ → ℚ) (c : PerThread) (it : Nat × PerThread) :
    (addThreadRounded rnd c it).events = (addThread c it).events := by
  simp [addThreadRounded, addThread, foldl_addEvent, foldl_addAvg, foldl_addAvgRounded,
    foldl_addTime]

theorem addThreadRounded_time (rnd : ℚ → ℚ) (c : PerThread) (it : Nat × PerThread) :
    (addThreadRounded rnd c it).time = (addThread c it).time := by
  simp [addThreadRounded, addThread, foldl_addEvent, foldl_addAvg, foldl_addAvgRounded,
    foldl_addTime]

theorem addThreadRounded_avg (rnd : ℚ → ℚ) (c : PerThread) (it : Nat × PerThread) :
    (addThreadRounded rnd c it).avg
      = it.2.avg.foldl (fun m e => update m e.1 AvgInfo.zero fun v => mergeAvgRounded rnd v e.2)
          c.avg := by
  simp [addThreadRounded, foldl_addEvent, foldl_addAvgRounded, foldl_addTime]

theorem merge_rounded_events_time (rnd : ℚ → ℚ) (data : List (Nat × PerThread))
    (c c2 : PerThread) (he : c.events = c2.events) (ht : c.time = c2.time) :
    (data.foldl (addThreadRounded rnd) c).events = (data.foldl addThread c2).events ∧
      (data.foldl (addThreadRounded rnd) c).time = (data.foldl addThread c2).time := by
  induction data generalizing c c2 with
  | nil => exact ⟨he, ht⟩
  | cons it rest ih =>
    rw [List.foldl_cons, List.foldl_cons]
    apply ih
    · rw [addThreadRounded_events, addThread_events, addThread_events, he]
    · rw [addThreadRounded_time, addThread_time, addThread_time, ht]

theorem find_merge_avg_rounded (rnd : ℚ → ℚ) (data : List (Nat × PerThread)) (c : PerThread)
    (k : String) :
    find (data.foldl (addThreadRounded rnd) c).avg k
      = foldEntry (mergeAvgRounded rnd) AvgInfo.zero (find c.avg k)
          (data.flatMap fun it => (it.2.avg.filter fun e => e.1 = k).map Prod.snd) := by
  induction data generalizing c with
  | nil => rfl
  | cons it rest ih =>
    rw [List.foldl_cons, ih, addThreadRounded_avg, find_foldl_update (mergeAvgRounded rnd),
      List.flatMap_cons, foldEntry_append]

theorem foldEntry_map {V W U : Type} (op : V → W → V) (d : V) (op2 : U → W → U) (d2 : U)
    (g : V → U) (hd : g d = d2) (hop : ∀ v w, g (op v w) = op2 (g v) w)
    (acc : Option V) (ws : List W) :
    (foldEntry op d acc ws).map g = foldEntry op2 d2 (acc.map g) ws := by
  induction ws generalizing acc with
  | nil => rfl
  | cons w ws ih =>
    have h1 : foldEntry op d acc (w :: ws) = foldEntry op d (some (op (acc.getD d) w)) ws := rfl
    have h2 : foldEntry op2 d2 (acc.map g) (w :: ws)
        = foldEntry op2 d2 (some (op2 ((acc.map g).getD d2) w)) ws := rfl
    rw [h1, h2, ih]
    cases acc <;> simp [hop, hd]

theorem totalThreadData_identity_rounded (p : Profiler) :
    totalThreadDataRounded id p = totalThreadData p := by
  have h : ∀ (data : List (Nat × PerThread)) (c : PerThread),
      data.foldl (addThreadRounded id) c = data.foldl addThread c := by
    intro data
    induction data with
    | nil => intro c; rfl
    | cons it rest ih =>
      intro c
      rw [List.foldl_cons, List.foldl_cons, ← ih]
      rfl
  exact h p.data_ PerThread.empty

/-- C4, as amended: for every collection of per-thread ledgers and every permutation `l`
of the order in which `totalThreadData` folds them, whatever the rounding `rnd` of the
sums of `double` is, the combined ledger is the same in its event counters, in the
blocks of time (total, parts, shortest and longest) and in the `parts` of every average;
and when the sums are exact the whole combined ledger is the same, `total` and
`totalSqr` of the averages included. -/
theorem totalThreadData_perm (rnd : ℚ → ℚ) (p : Profiler) (l : List (Nat × PerThread))
    (h : l.Perm p.data_) :
    (totalThreadDataRounded rnd { p with data_ := l }).events
        = (totalThreadDataRounded rnd p).events ∧
      (totalThreadDataRounded rnd { p with data_ := l }).time
        = (totalThreadDataRounded rnd p).time ∧
      (∀ k : String,
        (find (totalThreadDataRounded rnd { p with data_ := l }).avg k).map (fun a => a.parts)
          = (find (totalThreadDataRounded rnd p).avg k).map (fun a => a.parts)) ∧
      totalThreadData { p with data_ := l } = totalThreadData p := by
  have hx := merge_perm_exact p l h
  have h1 := merge_rounded_events_time rnd l PerThread.empty PerThread.empty rfl rfl
  have h2 := merge_rounded_events_time rnd p.data_ PerThread.empty PerThread.empty rfl rfl
  refine ⟨?_, ?_, ?_, hx⟩
  · exact h1.1.trans ((congrArg PerThread.events hx).trans h2.1.symm)
  · exact h1.2.trans ((congrArg PerThread.time hx).trans h2.2.symm)
  · intro k
    unfold totalThreadDataRounded
    rw [find_merge_avg_rounded, find_merge_avg_rounded,
      foldEntry_map (mergeAvgRounded rnd) AvgInfo.zero (fun (n : Nat) (w : AvgInfo) => n + w.parts)
        0 (fun a => a.parts) rfl (fun _ _ => rfl),
      foldEntry_map (mergeAvgRounded rnd) AvgInfo.zero (fun (n : Nat) (w : AvgInfo) => n + w.parts)
        0 (fun a => a.parts) rfl (fun _ _ => rfl)]
    exact foldEntry_perm _ _ _ _ _ (h.flatMap_right _) fun z x y => by omega

/-- C4 at the state `twoThreads`, folded with thread 2 before thread 1, with the
rounding of binary64. -/
theorem totalThreadData_perm_witness :
    twoThreads.data_.reverse.Perm twoThreads.data_ ∧
    (totalThreadDataRounded roundDouble { twoThreads with data_ := twoThreads.data_.reverse }).events
      = (totalThreadDataRounded roundDouble twoThreads).events ∧
    (totalThreadDataRounded roundDouble { twoThreads with data_ := twoThreads.data_.reverse }).time
      = (totalThreadDataRounded roundDouble twoThreads).time ∧
    totalThreadData { twoThreads with data_ := twoThreads.data_.reverse }
      = totalThreadData twoThreads :=
  ⟨List.reverse_perm _,
    (totalThreadData_perm roundDouble twoThreads _ (List.reverse_perm _)).1,
    (totalThreadData_perm roundDouble twoThreads _ (List.reverse_perm _)).2.1,
    (totalThreadData_perm roundDouble twoThreads _ (List.reverse_perm _)).2.2.2⟩

/-! ## The rounding of the sums of `double` -/

theorem roundHalfEven_eq (q : ℚ) (f : ℤ) (r : ℚ) (hq : q = f + r) (h0 : 0 ≤ r) (h1 : r < 1) :
    roundHalfEven q
      = if r < 1 / 2 then f else if 1 / 2 < r then f + 1 else if f % 2 = 0 then f else f + 1 := by
  have hf : ⌊q⌋ = f := by
    rw [Int.floor_eq_iff]
    constructor <;> rw [hq] <;> linarith
  have hr : q - f = r := by rw [hq]; ring
  unfold roundHalfEven
  rw [hf, hr]

theorem log_two_eq (x : ℚ) (e : ℤ) (hx : 0 < x) (h1 : (2 : ℚ) ^ e ≤ x) (h2 : x < 2 ^ (e + 1)) :
    Int.log 2 |x| = e := by
  rw [abs_of_pos hx]
  have ha : e ≤ Int.log 2 x := (Int.zpow_le_iff_le_log (by norm_num) hx).1 (by exact_mod_cast h1)
  have hb : Int.log 2 x < e + 1 := (Int.lt_zpow_iff_log_lt (by norm_num) hx).1 (by exact_mod_cast h2)
  omega

theorem roundDouble_eq (x : ℚ) (e f : ℤ) (r : ℚ) (hx : 0 < x) (h1 : (2 : ℚ) ^ e ≤ x)
    (h2 : x < 2 ^ (e + 1)) (hq : x / 2 ^ (e - 52) = f + r) (h0 : 0 ≤ r) (hr : r < 1) :
    roundDouble x
      = ((if r < 1 / 2 then f else if 1 / 2 < r then f + 1 else if f % 2 = 0 then f else f + 1 : ℤ) : ℚ)
        * 2 ^ (e - 52) := by
  unfold roundDouble
  rw [if_neg (ne_of_gt hx), log_two_eq x e hx h1 h2, roundHalfEven_eq _ f r hq h0 hr]

theorem roundDouble_two_pow_53 : roundDouble 9007199254740992 = 9007199254740992 := by
  rw [roundDouble_eq 9007199254740992 53 4503599627370496 0 (by norm_num) (by norm_num)
    (by norm_num) (by norm_num) (by norm_num) (by norm_num)]
  norm_num

theorem roundDouble_two_pow_53_add_one : roundDouble 9007199254740993 = 9007199254740992 := by
  rw [roundDouble_eq 9007199254740993 53 4503599627370496 (1 / 2) (by norm_num) (by norm_num)
    (by norm_num) (by norm_num) (by norm_num) (by norm_num)]
  norm_num

theorem roundDouble_two_pow_53_add_two : roundDouble 9007199254740994 = 9007199254740994 := by
  rw [roundDouble_eq 9007199254740994 53 4503599627370497 0 (by norm_num) (by norm_num)
    (by norm_num) (by norm_num) (by norm_num) (by norm_num)]
  norm_num

theorem roundDouble_one : roundDouble 1 = 1 := by
  rw [roundDouble_eq 1 0 4503599627370496 0 (by norm_num) (by norm_num)
    (by norm_num) (by norm_num) (by norm_num) (by norm_num)]
  norm_num

theorem roundDouble_two : roundDouble 2 = 2 := by
  rw [roundDouble_eq 2 1 4503599627370496 0 (by norm_num) (by norm_num)
    (by norm_num) (by norm_num) (by norm_num) (by norm_num)]
  norm_num

theorem roundDouble_two_pow_106 :
    roundDouble 81129638414606681695789005144064 = 81129638414606681695789005144064 := by
  rw [roundDouble_eq 81129638414606681695789005144064 106 4503599627370496 0 (by norm_num)
    (by norm_num) (by norm_num) (by norm_num) (by norm_num) (by norm_num)]
  norm_num

theorem roundDouble_two_pow_106_add_one :
    roundDouble 81129638414606681695789005144065 = 81129638414606681695789005144064 := by
  rw [roundDouble_eq 81129638414606681695789005144065 106 4503599627370496
    (1 / 18014398509481984) (by norm_num) (by norm_num) (by norm_num) (by norm_num)
    (by norm_num) (by norm_num)]
  norm_num

theorem roundDouble_two_pow_106_add_two :
    roundDouble 81129638414606681695789005144066 = 81129638414606681695789005144064 := by
  rw [roundDouble_eq 81129638414606681695789005144066 106 4503599627370496
    (2 / 18014398509481984) (by norm_num) (by norm_num) (by norm_num) (by norm_num)
    (by norm_num) (by norm_num)]
  norm_num

/-- C4 as first stated fails for the averages: with the sums of `double` rounded as
binary64 rounds them, the three ledgers of `bigSmallSmall` (the `x` totals
`9007199254740992`, `1` and `1`) merge to the total `9007199254740992` when the large
one is folded first and to `9007199254740994` when it is folded last, as it is in the
state `smallSmallBig`, where other threads hold the same ledgers. Both states are reached
from a cleared engine by three calls of `average`. -/
theorem totalThreadData_perm_rounding :
    ((twoThreads.clear 0).runAverages
        [(1, "x", 9007199254740992), (2, "x", 1), (3, "x", 1)]).data_ = bigSmallSmall.data_ ∧
    ((twoThreads.clear 0).runAverages
        [(1, "x", 1), (2, "x", 1), (3, "x", 9007199254740992)]).data_ = smallSmallBig.data_ ∧
    bigSmallSmall.data_.reverse.Perm bigSmallSmall.data_ ∧
    find (totalThreadDataRounded roundDouble bigSmallSmall).avg "x"
      = some { total := 9007199254740992, totalSqr := 81129638414606681695789005144064,
               parts := 3 } ∧
    find (totalThreadDataRounded roundDouble
        { bigSmallSmall with data_ := bigSmallSmall.data_.reverse }).avg "x"
      = some { total := 9007199254740994, totalSqr := 81129638414606681695789005144064,
               parts := 3 } ∧
    find (totalThreadDataRounded roundDouble smallSmallBig).avg "x"
      = some { total := 9007199254740994, totalSqr := 81129638414606681695789005144064,
               parts := 3 } := by
  refine ⟨?_, ?_, List.reverse_perm _, ?_, ?_, ?_⟩
  · norm_num [runAverages, average, PerThread.average, clear, key, twoThreads, bigSmallSmall,
      StdMap.update, StdMap.sub, StdMap.set, StdMap.find, PerThread.empty, AvgInfo.zero,
      StdLess.less, lexLess]
  · norm_num [runAverages, average, PerThread.average, clear, key, twoThreads, smallSmallBig,
      StdMap.update, StdMap.sub, StdMap.set, StdMap.find, PerThread.empty, AvgInfo.zero,
      StdLess.less, lexLess]
  · norm_num [totalThreadDataRounded, bigSmallSmall, twoThreads, addThreadRounded, addAvgRounded,
      mergeAvgRounded, addEvent, addTime, StdMap.update, StdMap.sub, StdMap.set, StdMap.find,
      PerThread.empty, AvgInfo.zero, roundDouble_two_pow_53, roundDouble_two_pow_53_add_one,
      roundDouble_two_pow_106, roundDouble_two_pow_106_add_one]
  · norm_num [totalThreadDataRounded, bigSmallSmall, twoThreads, addThreadRounded, addAvgRounded,
      mergeAvgRounded, addEvent, addTime, StdMap.update, StdMap.sub, StdMap.set, StdMap.find,
      PerThread.empty, AvgInfo.zero, roundDouble_one, roundDouble_two,
      roundDouble_two_pow_53_add_two, roundDouble_two_pow_106_add_two]
  · norm_num [totalThreadDataRounded, smallSmallBig, twoThreads, addThreadRounded, addAvgRounded,
      mergeAvgRounded, addEvent, addTime, StdMap.update, StdMap.sub, StdMap.set, StdMap.find,
      PerThread.empty, AvgInfo.zero, roundDouble_one, roundDouble_two,
      roundDouble_two_pow_53_add_two, roundDouble_two_pow_106_add_two]

/-! ## Timing one block: `begin` then `end` -/

theorem sub_update {K V : Type} [DecidableEq K] [StdLess K]
    (m : StdMap K V) (k : K) (d : V) (f : V → V) (j : K) (e : V) :
    sub (update m k d f) j e = if j = k then f (sub m k d) else sub m j e := by
  unfold sub
  rw [find_update]
  split_ifs <;> rfl

theorem find_update_self {K V : Type} [DecidableEq K] [StdLess K]
    (m : StdMap K V) (k : K) (d : V) (f : V → V) :
    find (update m k d f) k = some (f (sub m k d)) :=
  (find_update m k d f k).trans (if_pos rfl)

/-- C5: in every engine state, for every thread and block name, `begin(name)` at clock
time `t` followed by `end(name)` at clock time `t + d` leaves the thread's summary of the
block with `parts` one more and `total` `d` more than before (an absent block counting
as a fresh `TimeInfo`), with `shortest` the minimum of the old `shortest` and `d` and
`longest` the maximum of the old `longest` and `d`, so `shortest ≤ d ≤ longest`. -/
theorem begin_end_block (p : Profiler) (tid : Nat) (name : String) (t d : Int) :
    ∃ (th : PerThread) (new : TimeInfo),
      find ((p.begin tid t name).end_ tid (t + d) name).data_ tid = some th ∧
      find th.time name = some new ∧
      new.parts = (sub (sub p.data_ tid PerThread.empty).time name TimeInfo.init).parts + 1 ∧
      new.total = (sub (sub p.data_ tid PerThread.empty).time name TimeInfo.init).total + d ∧
      new.shortest
        = min (sub (sub p.data_ tid PerThread.empty).time name TimeInfo.init).shortest d ∧
      new.longest
        = max (sub (sub p.data_ tid PerThread.empty).time name TimeInfo.init).longest d ∧
      new.shortest ≤ d ∧ d ≤ new.longest := by
  refine ⟨_, _, find_update_self _ tid PerThread.empty (fun th => th.end_ (t + d) name),
    find_update_self _ name TimeInfo.init (fun ti => ti.update (t + d)), ?_, ?_, ?_, ?_, ?_, ?_⟩
  · simp [begin, PerThread.begin, sub_update, TimeInfo.update, TimeInfo.set]
  · simp [begin, PerThread.begin, sub_update, TimeInfo.update, TimeInfo.set]
  · simp [begin, PerThread.begin, sub_update, TimeInfo.update, TimeInfo.set]
  · simp [begin, PerThread.begin, sub_update, TimeInfo.update, TimeInfo.set]
  · simp [begin, PerThread.begin, sub_update, TimeInfo.update, TimeInfo.set]
  · simp [begin, PerThread.begin, sub_update, TimeInfo.update, TimeInfo.set]

/-! ## The global timer: `start`, `stop`, `clear` -/

/-- C6: for an engine running since `t0 = tinfo_.start` with accumulated total
`T = tinfo_.total`, `stop()` at `t1`, `start()` at `t2`, `stop()` at `t3` leave the total
at `T + (t1 - t0) + (t3 - t2)` with `running_` false; the total after the first stop is
`T + (t1 - t0)` and the re-start leaves it as it is, so the time from `t1` to `t2` is not
counted and the earlier total is not reset. -/
theorem stop_start_stop_total (p : Profiler) (t1 t2 t3 : Int) (h : p.running_ = true) :
    (((p.stop t1).start t2).stop t3).tinfo_.total
        = p.tinfo_.total + (t1 - p.tinfo_.start) + (t3 - t2) ∧
      (((p.stop t1).start t2).stop t3).running_ = false ∧
      (p.stop t1).tinfo_.total = p.tinfo_.total + (t1 - p.tinfo_.start) ∧
      ((p.stop t1).start t2).tinfo_.total = (p.stop t1).tinfo_.total := by
  simp [stop, start, h, TimeInfo.update, TimeInfo.set]

/-- C6 at `runningEngine` (running since 100 with total 40): stop at 130, start at 200,
stop at 250 give the total 40 + 30 + 50. -/
theorem stop_start_stop_total_witness :
    runningEngine.running_ = true ∧
    (((runningEngine.stop 130).start 200).stop 250).tinfo_.total = 40 + (130 - 100) + (250 - 200) ∧
      (((runningEngine.stop 130).start 200).stop 250).running_ = false ∧
      (runningEngine.stop 130).tinfo_.total = 40 + (130 - 100) ∧
      ((runningEngine.stop 130).start 200).tinfo_.total
        = (runningEngine.stop 130).tinfo_.total :=
  ⟨rfl, stop_start_stop_total runningEngine 130 200 250 rfl⟩

/-- C7: in every engine state, `clear()` at clock time `t` leaves `data_` empty, so the
merged ledger has no counter, average or block; the accumulated total is zero; `running_`
is what it was; and if the engine was running the timer's start is `t`, so a following
`stop()` at `t2` gives the total `t2 - t`. -/
theorem clear_resets (p : Profiler) (t : Int) :
    (p.clear t).data_ = [] ∧
      (p.clear t).totalThreadData = PerThread.empty ∧
      (p.clear t).tinfo_.total = 0 ∧
      (p.clear t).running_ = p.running_ ∧
      (p.running_ = true →
        (p.clear t).tinfo_.start = t ∧ ∀ t2 : Int, ((p.clear t).stop t2).tinfo_.total = t2 - t) := by
  refine ⟨clear_data p t, ?_, ?_, ?_, ?_⟩
  · simp [totalThreadData, clear_data]
  · unfold clear; dsimp only; split_ifs <;> rfl
  · unfold clear; dsimp only; split_ifs <;> rfl
  · intro h
    simp [clear, stop, h, TimeInfo.update, TimeInfo.set, TimeInfo.init]

/-- C7 at `runningEngine`, cleared at clock time 300 and stopped at 320. -/
theorem clear_resets_witness :
    runningEngine.running_ = true ∧
      (runningEngine.clear 300).data_ = [] ∧
      (runningEngine.clear 300).tinfo_.total = 0 ∧
      (runningEngine.clear 300).running_ = true ∧
      (runningEngine.clear 300).tinfo_.start = 300 ∧
      ((runningEngine.clear 300).stop 320).tinfo_.total = 320 - 300 :=
  ⟨rfl, (clear_resets runningEngine 300).1, (clear_resets runningEngine 300).2.2.1,
    (clear_resets runningEngine 300).2.2.2.1,
    ((clear_resets runningEngine 300).2.2.2.2 rfl).1,
    ((clear_resets runningEngine 300).2.2.2.2 rfl).2 320⟩

/-! ## `shortest ≤ longest` in every reachable state -/

theorem all_updateThread (J : PerThread → Prop) (h0 : J PerThread.empty) (p : Profiler)
    (tid : Nat) (f : PerThread → PerThread) (hf : ∀ t : PerThread, J t → J (f t))
    (hp : ∀ it ∈ p.data_, J it.2) :
    ∀ it ∈ p.data_.update tid PerThread.empty f, J it.2 := by
  intro it hit
  rcases mem_set _ _ _ _ hit with h1 | h1
  · rw [h1]
    apply hf
    unfold sub
    cases hv : find p.data_ tid with
    | none => exact h0
    | some v => exact hp _ (mem_of_find _ _ _ hv)
  · exact hp it h1

theorem Ordered_sub (t : PerThread) (h : t.Ordered) (name : String) :
    0 < (sub t.time name TimeInfo.init).parts →
      (sub t.time name TimeInfo.init).shortest ≤ (sub t.time name TimeInfo.init).longest := by
  unfold sub
  cases hv : find t.time name with
  | none => simp [TimeInfo.init]
  | some v => exact h _ (mem_of_find _ _ _ hv)

theorem Ordered_begin (t : PerThread) (now : Int) (name : String) (h : t.Ordered) :
    (t.begin now name).Ordered := by
  intro e he
  rcases mem_set _ _ _ _ he with h1 | h1
  · rw [h1]
    exact Ordered_sub t h name
  · exact h e h1

theorem Ordered_end (t : PerThread) (now : Int) (name : String) (h : t.Ordered) :
    (t.end_ now name).Ordered := by
  intro e he
  rcases mem_set _ _ _ _ he with h1 | h1
  · rw [h1]
    intro _
    simp only [TimeInfo.update]
    exact le_trans (min_le_right _ _) (le_max_right _ _)
  · exact h e h1

theorem Ordered_step (p : Profiler) (c : Call) (hp : ∀ it ∈ p.data_, it.2.Ordered) :
    ∀ it ∈ (p.step c).data_, it.2.Ordered := by
  have h0 : PerThread.empty.Ordered := fun e he => absurd he (List.not_mem_nil _)
  cases c with
  | event tid name times =>
    exact all_updateThread _ h0 p tid (fun t => t.event (p.key name) times) (fun t ht => ht) hp
  | average tid name value =>
    exact all_updateThread _ h0 p tid (fun t => t.average (p.key name) value) (fun t ht => ht) hp
  | begin tid now name =>
    exact all_updateThread _ h0 p tid _ (fun t ht => Ordered_begin t now name ht) hp
  | end_ tid now name =>
    exact all_updateThread _ h0 p tid _ (fun t ht => Ordered_end t now name ht) hp
  | start now =>
    simp only [step, start]
    split_ifs <;> exact hp
  | stop now =>
    simp only [step, stop]
    split_ifs <;> exact hp
  | clear now =>
    simp only [step, clear_data]
    exact fun it hit => absurd hit (List.not_mem_nil _)

theorem WF_step (p : Profiler) (c : Call) (hp : p.WF) : (p.step c).WF := by
  cases c with
  | event tid name times => exact WF_event p tid name times hp
  | average tid name value => exact WF_average p tid name value hp
  | begin tid now name => exact WF_begin p tid now name hp
  | end_ tid now name => exact WF_end p tid now name hp
  | start now => exact WF_start p now hp
  | stop now => exact WF_stop p now hp
  | clear now => exact WF_clear p now

theorem run_invariant (p : Profiler) (calls : List Call) (hw : p.WF)
    (ho : ∀ it ∈ p.data_, it.2.Ordered) :
    (p.run calls).WF ∧ ∀ it ∈ (p.run calls).data_, it.2.Ordered := by
  induction calls generalizing p with
  | nil => exact ⟨hw, ho⟩
  | cons c rest ih => exact ih (p.step c) (WF_step p c hw) (Ordered_step p c ho)

/-- C8: in every state reached from a cleared engine by any sequence of `event`,
`average`, `begin`, `end`, `start`, `stop` and `clear` calls, made by any threads at
any clock times (an `end` need not follow a `begin`), every time-block summary of every
thread with `parts > 0` has `shortest ≤ longest`, and so has every block of the merged
ledger of `totalThreadData`. -/
theorem shortest_le_longest_reachable (q : Profiler) (now : Int) (calls : List Call) :
    (∀ (tid : Nat) (th : PerThread) (name : String) (ti : TimeInfo),
        find ((q.clear now).run calls).data_ tid = some th → find th.time name = some ti →
        0 < ti.parts → ti.shortest ≤ ti.longest) ∧
    ∀ (name : String) (tc : TimeInfo),
      find ((q.clear now).run calls).totalThreadData.time name = some tc →
      0 < tc.parts → tc.shortest ≤ tc.longest := by
  have h0 : ∀ it ∈ (q.clear now).data_, it.2.Ordered := by
    rw [clear_data]
    exact fun it hit => absurd hit (List.not_mem_nil _)
  obtain ⟨hw, ho⟩ := run_invariant (q.clear now) calls (WF_clear q now) h0
  constructor
  · intro tid th name ti h1 h2
    exact ho _ (mem_of_find _ _ _ h1) _ (mem_of_find _ _ _ h2)
  · intro name tc h1 h2
    rw [find_total_time _ hw.2, foldEntry_eq] at h1
    split_ifs at h1 with h3
    simp only [Option.getD_none, Option.some.injEq] at h1
    subst h1
    rw [foldl_mergeTime_parts] at h2
    have h4 : ∃ w ∈ ((q.clear now).run calls).timesOf name, 0 < w.parts := by
      by_contra hc
      push_neg at hc
      have h5 : ((((q.clear now).run calls).timesOf name).map fun w => w.parts).sum = 0 := by
        apply List.sum_eq_zero
        intro x hx
        obtain ⟨w, hw1, hw2⟩ := List.mem_map.1 hx
        have := hc w hw1
        omega
      simp [h5, TimeInfo.init] at h2
    obtain ⟨w, hw1, hw2⟩ := h4
    obtain ⟨it, hit, he⟩ := timesOf_mem _ name w hw1
    have h6 := ho it hit _ he hw2
    have h7 := (foldl_mergeTime_shortest_le (((q.clear now).run calls).timesOf name)
      TimeInfo.init).2 w hw1
    have h8 := (foldl_mergeTime_longest_le (((q.clear now).run calls).timesOf name)
      TimeInfo.init).2 w hw1
    exact le_trans h7 (le_trans h6 h8)

/-- C8 on a run with an `end` that no `begin` precedes: thread 1 ends "b" at 50 out of
the blue, thread 2 times "b" from 10 to 25, thread 1 begins "b" again at 60. -/
theorem shortest_le_longest_reachable_witness :
    ∃ (th : PerThread) (ti : TimeInfo),
      find ((twoThreads.clear 0).run
        [.end_ 1 50 "b", .begin 2 10 "b", .end_ 2 25 "b", .begin 1 60 "b"]).data_ 1 = some th ∧
      find th.time "b" = some ti ∧ 0 < ti.parts ∧ ti.shortest ≤ ti.longest := by
  have h1 : find ((twoThreads.clear 0).run
      [.end_ 1 50 "b", .begin 2 10 "b", .end_ 2 25 "b", .begin 1 60 "b"]).data_ 1
      = some (⟨[], [], [("b", ⟨50, 50, 50, 1, 60⟩)]⟩ : PerThread) := by
    decide
  have h2 : find (⟨[], [], [("b", ⟨50, 50, 50, 1, 60⟩)]⟩ : PerThread).time "b"
      = some (⟨50, 50, 50, 1, 60⟩ : TimeInfo) := by
    decide
  exact ⟨_, _, h1, h2, by decide,
    (shortest_le_longest_reachable twoThreads 0
      [.end_ 1 50 "b", .begin 2 10 "b", .end_ 2 25 "b", .begin 1 60 "b"]).1 1 _ "b" _ h1 h2
      (by decide)⟩

/-! ## What a call of one thread leaves untouched -/

/-- C10: a call of `event`, `average`, `begin` or `end` by thread `A` leaves the ledger
of every other thread as it was (so the set of threads grows at most by `A`), and within
the ledger of `A` (an empty one if `A` had none) it leaves the two other maps as they were
and changes in its own map at most the entry under the key of the call. -/
theorem mutators_frame (p : Profiler) (A : Nat) (name : String) (times : Nat) (value : ℚ)
    (now : Int) :
    ((∀ B : Nat, B ≠ A → find (p.event A name times).data_ B = find p.data_ B) ∧
      ∃ new : PerThread, find (p.event A name times).data_ A = some new ∧
        new.avg = (sub p.data_ A PerThread.empty).avg ∧
        new.time = (sub p.data_ A PerThread.empty).time ∧
        ∀ k : String, k ≠ p.key name →
          find new.events k = find (sub p.data_ A PerThread.empty).events k) ∧
    ((∀ B : Nat, B ≠ A → find (p.average A name value).data_ B = find p.data_ B) ∧
      ∃ new : PerThread, find (p.average A name value).data_ A = some new ∧
        new.events = (sub p.data_ A PerThread.empty).events ∧
        new.time = (sub p.data_ A PerThread.empty).time ∧
        ∀ k : String, k ≠ p.key name →
          find new.avg k = find (sub p.data_ A PerThread.empty).avg k) ∧
    ((∀ B : Nat, B ≠ A → find (p.begin A now name).data_ B = find p.data_ B) ∧
      ∃ new : PerThread, find (p.begin A now name).data_ A = some new ∧
        new.events = (sub p.data_ A PerThread.empty).events ∧
        new.avg = (sub p.data_ A PerThread.empty).avg ∧
        ∀ k : String, k ≠ name →
          find new.time k = find (sub p.data_ A PerThread.empty).time k) ∧
    ((∀ B : Nat, B ≠ A → find (p.end_ A now name).data_ B = find p.data_ B) ∧
      ∃ new : PerThread, find (p.end_ A now name).data_ A = some new ∧
        new.events = (sub p.data_ A PerThread.empty).events ∧
        new.avg = (sub p.data_ A PerThread.empty).avg ∧
        ∀ k : String, k ≠ name →
          find new.time k = find (sub p.data_ A PerThread.empty).time k) := by
  have hB : ∀ (f : PerThread → PerThread) (B : Nat), B ≠ A →
      find (p.data_.update A PerThread.empty f) B = find p.data_ B := by
    intro f B hBA
    rw [find_update, if_neg hBA]
  refine ⟨⟨hB fun t => t.event (p.key name) times, _,
      find_update_self _ A PerThread.empty (fun t => t.event (p.key name) times), rfl, rfl, ?_⟩,
    ⟨hB fun t => t.average (p.key name) value, _,
      find_update_self _ A PerThread.empty (fun t => t.average (p.key name) value),
      rfl, rfl, ?_⟩,
    ⟨hB fun t => t.begin now name, _,
      find_update_self _ A PerThread.empty (fun t => t.begin now name), rfl, rfl, ?_⟩,
    ⟨hB fun t => t.end_ now name, _,
      find_update_self _ A PerThread.empty (fun t => t.end_ now name), rfl, rfl, ?_⟩⟩
  · intro k hk
    simp only [PerThread.event, find_update, if_neg hk]
  · intro k hk
    simp only [PerThread.average, find_update, if_neg hk]
  · intro k hk
    simp only [PerThread.begin, find_update, if_neg hk]
  · intro k hk
    simp only [PerThread.end_, find_update, if_neg hk]

/-! ## The standard deviation of an average with one sample -/

/-- With two samples or more the divisor of the standard deviation is not zero. -/
theorem stddevDivisor_ne_zero (a : AvgInfo) (h : 2 ≤ a.parts) :
    stddevDivisor a ≠ Dbl.fin 0 := by
  simp only [stddevDivisor, Dbl.sub, ne_eq, Dbl.fin.injEq]
  have h1 : (2 : ℚ) ≤ (a.parts : ℚ) := by exact_mod_cast h
  intro h2
  linarith

/-- With one sample the divisor of the standard deviation is zero. -/
theorem stddevDivisor_one (a : AvgInfo) (h : a.parts = 1) : stddevDivisor a = Dbl.fin 0 := by
  simp [stddevDivisor, Dbl.sub, h]

/-- C9, at the failing input: after the single call `average("x", 2.0)` the merged ledger
holds the average `x` with `parts = 1`; `printThreadInfo` computes its line with the
divisor `(double)parts - 1. = 0` and divides: the number under the square root is
`0.0 / 0.0`, NaN, where the claim has the division left out. -/
theorem avgLines_single_sample :
    find (((twoThreads.clear 0).average 1 "x" 2).totalThreadData).avg "x"
        = some { total := 2, totalSqr := 4, parts := 1 } ∧
      stddevDivisor { total := 2, totalSqr := 4, parts := 1 } = Dbl.fin 0 ∧
      avgLines ((twoThreads.clear 0).average 1 "x" 2).totalThreadData
        = [("x", Dbl.fin 2, Dbl.nan)] := by
  have h : ((twoThreads.clear 0).average 1 "x" 2).totalThreadData
      = (⟨[], [("x", ⟨2, 4, 1⟩)], []⟩ : PerThread) := by
    simp [twoThreads, clear, average, PerThread.average, totalThreadData, addThread, addAvg,
      mergeAvg, key, StdMap.update, StdMap.sub, StdMap.set, StdMap.find, PerThread.empty,
      AvgInfo.zero]
    norm_num
  rw [h]
  refine ⟨by simp [find], by simp [stddevDivisor, Dbl.sub], ?_⟩
  simp [avgLines, avgVector, stddevArg, stddevDivisor, find, Dbl.div, Dbl.sub, Dbl.mul,
    Dbl.abs, Dbl.scale]
  norm_num

/-! ## `begin` twice, then `end` -/

/-- C11: in every engine state, for every thread and block name, `begin(name)` at `t1`,
`begin(name)` again at `t2` and then `end(name)` at `t3` record one interval of length
`t3 - t2`: the thread's summary of the block has `parts` one more and `total`
`t3 - t2` more than before (an absent block counting as a fresh `TimeInfo`); the first
start `t1` plays no part. -/
theorem begin_begin_end_block (p : Profiler) (tid : Nat) (name : String) (t1 t2 t3 : Int) :
    ∃ (th : PerThread) (new : TimeInfo),
      find (((p.begin tid t1 name).begin tid t2 name).end_ tid t3 name).data_ tid = some th ∧
      find th.time name = some new ∧
      new.parts = (sub (sub p.data_ tid PerThread.empty).time name TimeInfo.init).parts + 1 ∧
      new.total
        = (sub (sub p.data_ tid PerThread.empty).time name TimeInfo.init).total + (t3 - t2) ∧
      new.shortest
        = min (sub (sub p.data_ tid PerThread.empty).time name TimeInfo.init).shortest (t3 - t2) ∧
      new.longest
        = max (sub (sub p.data_ tid PerThread.empty).time name TimeInfo.init).longest (t3 - t2) := by
  refine ⟨_, _, find_update_self _ tid PerThread.empty (fun th => th.end_ t3 name),
    find_update_self _ name TimeInfo.init (fun ti => ti.update t3), ?_, ?_, ?_, ?_⟩
  · simp [begin, PerThread.begin, sub_update, TimeInfo.update, TimeInfo.set]
  · simp [begin, PerThread.begin, sub_update, TimeInfo.update, TimeInfo.set]
  · simp [begin, PerThread.begin, sub_update, TimeInfo.update, TimeInfo.set]
  · simp [begin, PerThread.begin, sub_update, TimeInfo.update, TimeInfo.set]

/-! ## `start` and `stop` are idempotent -/

/-- C12: in a state with `running_` true, `start()` at any clock time leaves the whole
state as it is (the start timestamp is not overwritten); and in every state `start()` at
`t1` followed by `start()` at `t2` gives the state of the single `start()` at `t1`. -/
theorem start_idempotent (p : Profiler) (t1 t2 : Int) :
    (p.running_ = true → p.start t1 = p) ∧ (p.start t1).start t2 = p.start t1 := by
  constructor
  · intro h
    simp [start, h]
  · cases h : p.running_ <;> simp [start, h]

/-- C12 at `runningEngine` (running, started at 100): `start()` at 500 changes nothing. -/
theorem start_idempotent_witness :
    runningEngine.running_ = true ∧ runningEngine.start 500 = runningEngine ∧
      (runningEngine.start 500).tinfo_.start = 100 :=
  ⟨rfl, (start_idempotent runningEngine 500 0).1 rfl,
    congrArg (fun q : Profiler => q.tinfo_.start) ((start_idempotent runningEngine 500 0).1 rfl)⟩

/-- C13: in a state with `running_` false, `stop()` at any clock time leaves the whole
state as it is (the accumulated total does not advance); and in every state `stop()` at
`t1` followed by `stop()` at `t2` gives the state of the single `stop()` at `t1`. -/
theorem stop_idempotent (p : Profiler) (t1 t2 : Int) :
    (p.running_ = false → p.stop t1 = p) ∧ (p.stop t1).stop t2 = p.stop t1 := by
  constructor
  · intro h
    simp [stop, h]
  · cases h : p.running_ <;> simp [stop, h]

/-- C13 at `twoThreads` (not running): `stop()` at 500 changes nothing. -/
theorem stop_idempotent_witness :
    twoThreads.running_ = false ∧ twoThreads.stop 500 = twoThreads ∧
      (twoThreads.stop 500).tinfo_.total = twoThreads.tinfo_.total :=
  ⟨rfl, (stop_idempotent twoThreads 500 0).1 rfl,
    congrArg (fun q : Profiler => q.tinfo_.total) ((stop_idempotent twoThreads 500 0).1 rfl)⟩

/-! ## `status` -/

theorem status_data (p : Profiler) (now : Int) (merge : Bool) :
    (p.status now merge).1.data_ = p.data_ := by
  cases h : p.running_ <;> simp [status, stop, h]

theorem status_total_of_not_running (p : Profiler) (now : Int) (merge : Bool)
    (h : p.running_ = false) : (p.status now merge).1.tinfo_.total = p.tinfo_.total := by
  simp [status, stop, h]

/-- C14: in every engine state and for either value of `merge`, `status(out, merge)` at
clock time `now` leaves `running_` false and `printOnDestroy_` false, the accumulated
total advanced by `now - tinfo_.start` when the engine was running and as it was when it
was not, and `data_` (every per-thread ledger) as it was; the total it writes is that
final total, in seconds. -/
theorem status_effect (p : Profiler) (now : Int) (merge : Bool) :
    (p.status now merge).1.running_ = false ∧
      (p.status now merge).1.printOnDestroy_ = false ∧
      (p.status now merge).1.tinfo_.total
        = (if p.running_ then p.tinfo_.total + (now - p.tinfo_.start) else p.tinfo_.total) ∧
      (p.status now merge).1.data_ = p.data_ ∧
      (p.status now merge).2.total = seconds (p.status now merge).1.tinfo_.total := by
  cases h : p.running_ <;> simp [status, stop, h, TimeInfo.update]

/-! ## How the event counters change -/

theorem events_sub_update (p : Profiler) (A : Nat) (f : PerThread → PerThread)
    (hf : ∀ t : PerThread, (f t).events = t.events) (tid : Nat) :
    (sub (p.data_.update A PerThread.empty f) tid PerThread.empty).events
      = (sub p.data_ tid PerThread.empty).events := by
  rw [sub_update]
  split_ifs with h
  · rw [hf, h]
  · rfl

theorem counter_event (p : Profiler) (tid : Nat) (name : String) (k : Nat) :
    sub (sub (p.event tid name k).data_ tid PerThread.empty).events (p.key name) 0
      = (sub (sub p.data_ tid PerThread.empty).events (p.key name) 0 + k) % 2 ^ 64 := by
  simp [event, PerThread.event, sub_update]

theorem counter_replicate (n : Nat) (p : Profiler) (tid : Nat) (name : String) (k : Nat) :
    sub (sub (p.runEvents (List.replicate (n + 1) (tid, name, k))).data_ tid
        PerThread.empty).events (p.key name) 0
      = (sub (sub p.data_ tid PerThread.empty).events (p.key name) 0 + (n + 1) * k) % 2 ^ 64 := by
  induction n generalizing p with
  | zero =>
    have h := counter_event p tid name k
    simpa [runEvents] using h
  | succ m ih =>
    have h1 := ih (p.event tid name k)
    have h2 := counter_event p tid name k
    have h3 : ∀ s, (p.event tid name k).key s = p.key s := fun _ => rfl
    rw [h3, h2] at h1
    rw [List.replicate_succ]
    simp only [runEvents, List.foldl_cons] at h1 ⊢
    rw [h1, Nat.add_mul (m + 1) 1 k]
    omega

/-- C15, as amended: in every engine state, the counter of a thread for `name` after
`event(name, k)` is its value before plus `k` reduced modulo `2 ^ 64`, the width of
the `unsigned long` counter (an absent counter counting as 0), so it is the value before
plus `k`, and not less than before, when that sum is below `2 ^ 64`; after any call
other than `clear()` every counter that was present is still present, with its value
unchanged when the call is not an `event`, and with a value that is not less when the
call is an `event` whose amount added to the value stays below `2 ^ 64`; and `status`
leaves every ledger as it was. -/
theorem event_counter_monotone (p : Profiler) (tid : Nat) (name : String) (k : Nat) :
    sub (sub (p.event tid name k).data_ tid PerThread.empty).events (p.key name) 0
        = (sub (sub p.data_ tid PerThread.empty).events (p.key name) 0 + k) % 2 ^ 64 ∧
    (sub (sub p.data_ tid PerThread.empty).events (p.key name) 0 + k < 2 ^ 64 →
      sub (sub (p.event tid name k).data_ tid PerThread.empty).events (p.key name) 0
          = sub (sub p.data_ tid PerThread.empty).events (p.key name) 0 + k ∧
        sub (sub p.data_ tid PerThread.empty).events (p.key name) 0
          ≤ sub (sub (p.event tid name k).data_ tid PerThread.empty).events (p.key name) 0) ∧
    (∀ (c : Call) (t : Nat) (key : String) (v : Nat), (∀ now : Int, c ≠ Call.clear now) →
      find (sub p.data_ t PerThread.empty).events key = some v →
      ∃ v2 : Nat, find (sub (p.step c).data_ t PerThread.empty).events key = some v2 ∧
        ((∀ (A : Nat) (nm : String) (times : Nat), c ≠ Call.event A nm times) → v2 = v) ∧
        ∀ (A : Nat) (nm : String) (times : Nat), c = Call.event A nm times →
          v + times < 2 ^ 64 → v ≤ v2) ∧
    ∀ (now : Int) (merge : Bool), (p.status now merge).1.data_ = p.data_ := by
  have h1 := counter_event p tid name k
  refine ⟨h1, ?_, ?_, fun now merge => status_data p now merge⟩
  · intro hlt
    rw [h1, Nat.mod_eq_of_lt hlt]
    exact ⟨rfl, Nat.le_add_right _ _⟩
  intro c t key v hc hv
  cases c with
  | event A nm times =>
    simp only [step, event, sub_update]
    split_ifs with hA
    · subst hA
      simp only [PerThread.event, find_update]
      split_ifs with hk
      · subst hk
        refine ⟨_, rfl, fun h => absurd rfl (h _ _ _), ?_⟩
        intro A2 nm2 times2 hc2 hlt
        injection hc2 with _ _ ht
        subst ht
        simp only [sub] at hv ⊢
        rw [hv]
        simp only [Option.getD_some]
        rw [Nat.mod_eq_of_lt hlt]
        exact Nat.le_add_right _ _
      · exact ⟨v, hv, fun _ => rfl, fun _ _ _ _ _ => le_refl _⟩
    · exact ⟨v, hv, fun _ => rfl, fun _ _ _ _ _ => le_refl _⟩
  | average A nm value =>
    refine ⟨v, ?_, fun _ => rfl, fun _ _ _ _ _ => le_refl _⟩
    simp only [step, average]
    rw [events_sub_update p A (fun t => t.average (p.key nm) value) (fun _ => rfl)]
    exact hv
  | begin A now nm =>
    refine ⟨v, ?_, fun _ => rfl, fun _ _ _ _ _ => le_refl _⟩
    simp only [step, begin]
    rw [events_sub_update p A (fun t => t.begin now nm) (fun _ => rfl)]
    exact hv
  | end_ A now nm =>
    refine ⟨v, ?_, fun _ => rfl, fun _ _ _ _ _ => le_refl _⟩
    simp only [step, end_]
    rw [events_sub_update p A (fun t => t.end_ now nm) (fun _ => rfl)]
    exact hv
  | start now =>
    refine ⟨v, ?_, fun _ => rfl, fun _ _ _ _ _ => le_refl _⟩
    simp only [step, start]
    split_ifs <;> exact hv
  | stop now =>
    refine ⟨v, ?_, fun _ => rfl, fun _ _ _ _ _ => le_refl _⟩
    simp only [step, stop]
    split_ifs <;> exact hv
  | clear now => exact absurd rfl (hc now)

/-- C15 at `twoThreads`: thread 1 has counted "task" once; after `event("task", 4)` its
counter is 5, and after a `begin` by thread 2 the counter of thread 1 is still 1. -/
theorem event_counter_monotone_witness :
    sub (sub (twoThreads.event 1 "task" 4).data_ 1 PerThread.empty).events "task" 0 = 1 + 4 ∧
    ∃ v2 : Nat,
      find (sub (twoThreads.step (Call.begin 2 7 "b")).data_ 1 PerThread.empty).events "task"
        = some v2 ∧ v2 = 1 :=
  ⟨((event_counter_monotone twoThreads 1 "task" 4).2.1 (by decide)).1,
    ((event_counter_monotone twoThreads 1 "task" 4).2.2.1 (Call.begin 2 7 "b") 1 "task" 1
      (fun _ h => Call.noConfusion h) (by decide)).imp
      fun _ h => ⟨h.1, h.2.1 fun _ _ _ h2 => Call.noConfusion h2⟩⟩

/-- C15 as first stated fails: after `2 ^ 32 + 1` calls `event("task", 4294967295)` on a
cleared engine (the state `counterAtMax`) the counter of thread 1 for "task" is
`18446744073709551615`, the largest `unsigned long`, and after one more call
`event("task", 1)` it is 0, which is less. -/
theorem event_counter_wraps :
    sub (sub counterAtMax.data_ 1 PerThread.empty).events "task" 0 = 18446744073709551615 ∧
    sub (sub (counterAtMax.event 1 "task" 1).data_ 1 PerThread.empty).events "task" 0 = 0 := by
  have hk : ∀ calls, ((twoThreads.clear 0).runEvents calls).key "task" = "task" := by
    intro calls
    have h : ∀ (l : List (Nat × String × Nat)) (q : Profiler),
        (q.runEvents l).key "task" = q.key "task" := by
      intro l
      induction l with
      | nil => intro q; rfl
      | cons c rest ih => intro q; exact ih (q.event c.1 c.2.1 c.2.2)
    rw [h]
    rfl
  have h0 : (twoThreads.clear 0).key "task" = "task" := rfl
  have h1 := counter_replicate (2 ^ 32) (twoThreads.clear 0) 1 "task" 4294967295
  rw [h0] at h1
  have h2 : sub (sub (twoThreads.clear 0).data_ 1 PerThread.empty).events "task" 0 = 0 := by
    simp [clear, sub, find]
  rw [h2] at h1
  have h3 : sub (sub counterAtMax.data_ 1 PerThread.empty).events "task" 0
      = 18446744073709551615 := by
    unfold counterAtMax
    rw [h1]
    norm_num
  refine ⟨h3, ?_⟩
  have h4 := counter_event counterAtMax 1 "task" 1
  have h5 : counterAtMax.key "task" = "task" := hk _
  rw [h5, h3] at h4
  rw [h4]
  norm_num

/-! ## What changes the accumulated total -/

/-- C16: in every engine state, `event`, `average`, `begin`, `end` and `start` leave the
accumulated total `tinfo_.total` as it is, and so does `stop` called while `running_` is
false; a call that changes it is a `clear` or a `stop` made while running, and `status`
changes it only when the engine was running. (`totalThreadData` assigns to no member:
it is a function of the state.) -/
theorem total_changes_only_on_stop_or_clear (p : Profiler) (tid : Nat) (name : String)
    (times : Nat) (value : ℚ) (now : Int) :
    (p.event tid name times).tinfo_.total = p.tinfo_.total ∧
      (p.average tid name value).tinfo_.total = p.tinfo_.total ∧
      (p.begin tid now name).tinfo_.total = p.tinfo_.total ∧
      (p.end_ tid now name).tinfo_.total = p.tinfo_.total ∧
      (p.start now).tinfo_.total = p.tinfo_.total ∧
      (p.running_ = false → (p.stop now).tinfo_.total = p.tinfo_.total) ∧
      (∀ c : Call, (p.step c).tinfo_.total ≠ p.tinfo_.total →
        (∃ t : Int, c = Call.clear t) ∨ ((∃ t : Int, c = Call.stop t) ∧ p.running_ = true)) ∧
      ∀ merge : Bool, (p.status now merge).1.tinfo_.total ≠ p.tinfo_.total →
        p.running_ = true := by
  have hstart : ∀ t : Int, (p.start t).tinfo_.total = p.tinfo_.total := by
    intro t
    cases h : p.running_ <;> simp [start, h, TimeInfo.set]
  have hstop : ∀ t : Int, p.running_ = false → (p.stop t).tinfo_.total = p.tinfo_.total := by
    intro t h
    simp [stop, h]
  refine ⟨rfl, rfl, rfl, rfl, hstart now, hstop now, ?_, ?_⟩
  · intro c hc
    cases c with
    | event A nm k => exact absurd rfl hc
    | average A nm v => exact absurd rfl hc
    | begin A t nm => exact absurd rfl hc
    | end_ A t nm => exact absurd rfl hc
    | start t => exact absurd (hstart t) hc
    | stop t =>
      refine Or.inr ⟨⟨t, rfl⟩, ?_⟩
      cases h : p.running_
      · exact absurd (hstop t h) hc
      · rfl
    | clear t => exact Or.inl ⟨t, rfl⟩
  · intro merge hc
    cases h : p.running_
    · exact absurd (status_total_of_not_running p now merge h) hc
    · rfl

/-- C16 at `twoThreads` (not running): `stop()` at 500 leaves the total as it is. -/
theorem total_changes_only_on_stop_or_clear_witness :
    twoThreads.running_ = false ∧ (twoThreads.stop 500).tinfo_.total = twoThreads.tinfo_.total :=
  ⟨rfl, (total_changes_only_on_stop_or_clear twoThreads 1 "b" 1 0 500).2.2.2.2.2.1 rfl⟩

/-! ## The key of a call -/

theorem append_ne_self (a b : String) (h : a ≠ "") : a ++ b ≠ b := by
  intro h1
  have h2 := congrArg (fun x : String => x.data.length) h1
  simp only [String.data_append, List.length_append] at h2
  have h3 : a.data = [] := List.length_eq_zero.1 (by omega)
  exact h (String.ext h3)

/-- C19: with `enable_prefix` true, `event(name, k)` and `average(name, v)` update the
entry under `prefix + name` and, when the prefix is not empty, leave the entry under
`name` as it was; with `enable_prefix` false they update the entry under `name`;
`begin(name)` and `end(name)` set and update the entry under `name` whatever
`enable_prefix` is. (The entries are those of the calling thread; an absent entry counts
as a fresh one; the counter is an `unsigned long`, so its new value is the old one plus
`k` modulo `2 ^ 64`.) -/
theorem key_namespacing (p : Profiler) (tid : Nat) (name : String) (k : Nat) (v : ℚ)
    (now : Int) :
    (p.enablePrefix = true →
      (find (sub (p.event tid name k).data_ tid PerThread.empty).events (p.namePrefix ++ name)
          = some ((sub (sub p.data_ tid PerThread.empty).events (p.namePrefix ++ name) 0 + k)
              % 2 ^ 64) ∧
        (p.namePrefix ≠ "" →
          find (sub (p.event tid name k).data_ tid PerThread.empty).events name
            = find (sub p.data_ tid PerThread.empty).events name)) ∧
      (find (sub (p.average tid name v).data_ tid PerThread.empty).avg (p.namePrefix ++ name)
          = some
            { total :=
                (sub (sub p.data_ tid PerThread.empty).avg (p.namePrefix ++ name)
                  AvgInfo.zero).total + v
              totalSqr :=
                (sub (sub p.data_ tid PerThread.empty).avg (p.namePrefix ++ name)
                  AvgInfo.zero).totalSqr + v * v
              parts :=
                (sub (sub p.data_ tid PerThread.empty).avg (p.namePrefix ++ name)
                  AvgInfo.zero).parts + 1 } ∧
        (p.namePrefix ≠ "" →
          find (sub (p.average tid name v).data_ tid PerThread.empty).avg name
            = find (sub p.data_ tid PerThread.empty).avg name))) ∧
    (p.enablePrefix = false →
      find (sub (p.event tid name k).data_ tid PerThread.empty).events name
          = some ((sub (sub p.data_ tid PerThread.empty).events name 0 + k) % 2 ^ 64) ∧
      find (sub (p.average tid name v).data_ tid PerThread.empty).avg name
          = some
            { total := (sub (sub p.data_ tid PerThread.empty).avg name AvgInfo.zero).total + v
              totalSqr :=
                (sub (sub p.data_ tid PerThread.empty).avg name AvgInfo.zero).totalSqr + v * v
              parts := (sub (sub p.data_ tid PerThread.empty).avg name AvgInfo.zero).parts + 1 }) ∧
    find (sub (p.begin tid now name).data_ tid PerThread.empty).time name
        = some ((sub (sub p.data_ tid PerThread.empty).time name TimeInfo.init).set now) ∧
    find (sub (p.end_ tid now name).data_ tid PerThread.empty).time name
        = some ((sub (sub p.data_ tid PerThread.empty).time name TimeInfo.init).update now) := by
  refine ⟨?_, ?_, ?_, ?_⟩
  · intro h
    refine ⟨⟨?_, ?_⟩, ⟨?_, ?_⟩⟩
    · simp [event, PerThread.event, key, h, sub_update, find_update]
    · intro hne
      have h1 : ¬ name = p.namePrefix ++ name := fun h2 => append_ne_self _ _ hne h2.symm
      simp [event, PerThread.event, key, h, sub_update, find_update, h1]
    · simp [average, PerThread.average, key, h, sub_update, find_update]
    · intro hne
      have h1 : ¬ name = p.namePrefix ++ name := fun h2 => append_ne_self _ _ hne h2.symm
      simp [average, PerThread.average, key, h, sub_update, find_update, h1]
  · intro h
    constructor
    · simp [event, PerThread.event, key, h, sub_update, find_update]
    · simp [average, PerThread.average, key, h, sub_update, find_update]
  · simp [begin, PerThread.begin, sub_update, find_update]
  · simp [end_, PerThread.end_, sub_update, find_update]

/-- C19 at `twoThreads` with the prefix "ns." switched on: `event("task", 4)` by thread 1
counts under "ns.task" and leaves "task" at 1. -/
theorem key_namespacing_witness :
    ({ twoThreads with enablePrefix := true, namePrefix := "ns." } : Profiler).enablePrefix
        = true ∧
      ({ twoThreads with enablePrefix := true, namePrefix := "ns." } : Profiler).namePrefix
        ≠ "" ∧
      find (sub (({ twoThreads with enablePrefix := true, namePrefix := "ns." } :
          Profiler).event 1 "task" 4).data_ 1 PerThread.empty).events ("ns." ++ "task")
        = some ((sub (sub twoThreads.data_ 1 PerThread.empty).events ("ns." ++ "task") 0 + 4)
            % 2 ^ 64) ∧
      find (sub (({ twoThreads with enablePrefix := true, namePrefix := "ns." } :
          Profiler).event 1 "task" 4).data_ 1 PerThread.empty).events "task"
        = find (sub twoThreads.data_ 1 PerThread.empty).events "task" :=
  ⟨rfl, by decide,
    ((key_namespacing { twoThreads with enablePrefix := true, namePrefix := "ns." }
      1 "task" 4 0 0).1 rfl).1.1,
    ((key_namespacing { twoThreads with enablePrefix := true, namePrefix := "ns." }
      1 "task" 4 0 0).1 rfl).1.2 (by decide)⟩

/-! ## The merge of no thread and of one thread -/

theorem mergeAvg_zero (a : AvgInfo) : mergeAvg AvgInfo.zero a = a := by
  ext <;> simp [mergeAvg, AvgInfo.zero]

theorem find_total_single (p : Profiler) (tid : Nat) (t : PerThread)
    (hd : p.data_ = [(tid, t)]) (ht : t.WF) (he : ∀ e ∈ t.events, e.2 < 2 ^ 64)
    (name : String) :
    find p.totalThreadData.events name = find t.events name ∧
      find p.totalThreadData.avg name = find t.avg name ∧
      find p.totalThreadData.time name = (find t.time name).map (mergeTime TimeInfo.init) := by
  have hw : ∀ it ∈ p.data_, it.2.WF := by
    intro it hit
    rw [hd, List.mem_singleton] at hit
    rw [hit]
    exact ht
  rw [find_total_events p hw, find_total_avg p hw, find_total_time p hw]
  simp only [eventsOf, avgsOf, timesOf, hd, List.filterMap_cons, List.filterMap_nil]
  refine ⟨?_, ?_, ?_⟩
  · cases h : find t.events name with
    | none => simp [foldEntry]
    | some v =>
      have hv : v < 2 ^ 64 := he _ (mem_of_find _ _ _ h)
      simp only [foldEntry, List.foldl_cons, List.foldl_nil, Option.getD_none, Nat.zero_add,
        Nat.mod_eq_of_lt hv]
  · cases h : find t.avg name <;> simp [foldEntry, mergeAvg_zero]
  · cases h : find t.time name <;> simp [foldEntry]

/-- C18: with no thread in `data_`, `totalThreadData` returns a ledger with three empty
maps; with exactly one thread it returns that thread's events and averages as they are,
and for every block an entry with the thread's `total`, `parts`, `shortest` and `longest`
(a block without parts, still at the initial `shortest` and `longest`, included), and no
entry where the thread has none. The thread's ledger is one that the types of the program
can hold: its maps are ordered by key, its counters are below `2 ^ 64` (`unsigned long`)
and its durations lie in the range of `time::duration`. -/
theorem totalThreadData_identity (p : Profiler) :
    (p.data_ = [] → p.totalThreadData = PerThread.empty) ∧
    ∀ (tid : Nat) (t : PerThread), p.data_ = [(tid, t)] → t.WF →
      (∀ e ∈ t.events, e.2 < 2 ^ 64) →
      (∀ e ∈ t.time, durationMin ≤ e.2.total ∧ e.2.total ≤ durationMax) →
      (∀ e ∈ t.time, e.2.shortest ≤ durationMax ∧ durationMin ≤ e.2.longest) →
      p.totalThreadData.events = t.events ∧
      p.totalThreadData.avg = t.avg ∧
      ∀ name : String,
        (find t.time name = none → find p.totalThreadData.time name = none) ∧
        ∀ ti : TimeInfo, find t.time name = some ti →
          ∃ tc : TimeInfo, find p.totalThreadData.time name = some tc ∧
            tc.total = ti.total ∧ tc.parts = ti.parts ∧
            tc.shortest = ti.shortest ∧ tc.longest = ti.longest := by
  constructor
  · intro h
    simp [totalThreadData, h]
  · intro tid t hd ht he htot hr
    have hm := WF_merge p.data_ PerThread.empty ⟨WF_nil, WF_nil, WF_nil⟩
    refine ⟨?_, ?_, ?_⟩
    · exact ext_of_find _ _ hm.1 ht.1 fun k => (find_total_single p tid t hd ht he k).1
    · exact ext_of_find _ _ hm.2.1 ht.2.1 fun k => (find_total_single p tid t hd ht he k).2.1
    · intro name
      have h1 := (find_total_single p tid t hd ht he name).2.2
      constructor
      · intro h2
        rw [h1, h2]
        rfl
      · intro ti h2
        rw [h1, h2]
        have h3 := hr _ (mem_of_find _ _ _ h2)
        have h4 := htot _ (mem_of_find _ _ _ h2)
        refine ⟨_, rfl, ?_, ?_, ?_, ?_⟩
        · rw [mergeTime_total]
          simp only [TimeInfo.init, zero_add]
          exact wrapDuration_of_range _ h4.1 h4.2
        · simp [mergeTime_parts, TimeInfo.init]
        · rw [mergeTime_shortest]
          exact min_eq_right h3.1
        · rw [mergeTime_longest]
          exact max_eq_right h3.2

/-- C18 at `oneThread`: the merged events and averages are those of thread 7, and the
block "open", begun and not ended, keeps `parts = 0` and the initial `shortest` and
`longest`. -/
theorem totalThreadData_identity_witness :
    oneThread.totalThreadData.events = [("task", 3)] ∧
      oneThread.totalThreadData.avg = [("x", { total := 6, totalSqr := 20, parts := 2 })] ∧
      ∃ tc : TimeInfo, find oneThread.totalThreadData.time "open" = some tc ∧
        tc.total = 0 ∧ tc.parts = 0 ∧
        tc.shortest = durationMax ∧ tc.longest = durationMin := by
  have hw : PerThread.WF
      { events := [("task", 3)],
        avg := [("x", { total := 6, totalSqr := 20, parts := 2 })],
        time := [("b", { total := 6, shortest := 6, longest := 6, parts := 1, start := 1 }),
                 ("open", { TimeInfo.init with start := 9 })] } := by
    simp [PerThread.WF, StdMap.WF, keys, StdLess.less, lexLess]
  have h := (totalThreadData_identity oneThread).2 7 _ rfl hw
    (by simp)
    (by simp [TimeInfo.init, durationMax, durationMin])
    (by simp [TimeInfo.init, durationMax, durationMin])
  exact ⟨h.1, h.2.1, (h.2.2 "open").2 { TimeInfo.init with start := 9 } (by decide)⟩

/-! ## The order of the lines of the report -/

theorem find_of_mem {K V : Type} [DecidableEq K] [StdLess K] [StdLess.Lawful K]
    (m : StdMap K V) (h : StdMap.WF m) (e : K × V) (he : e ∈ m) : find m e.1 = some e.2 := by
  induction m with
  | nil => exact absurd he (List.not_mem_nil _)
  | cons e0 rest ih =>
    obtain ⟨k0, v0⟩ := e0
    rw [WF_cons] at h
    rcases List.mem_cons.1 he with h1 | h1
    · rw [h1]
      simp [find]
    · have h2 : e.1 ≠ k0 := by
        intro h3
        have h4 := not_mem_keys_of_less rest k0 h.1
        exact h4 (h3 ▸ List.mem_map_of_mem Prod.fst h1)
      simp only [find, h2, if_false]
      exact ih h.2 h1

theorem Sampled_average (t : PerThread) (key : String) (v : ℚ) (h : t.Sampled) :
    (t.average key v).Sampled := by
  intro e he
  rcases mem_set _ _ _ _ he with h1 | h1
  · rw [h1]
    exact Nat.succ_pos _
  · exact h e h1

theorem Sampled_step (p : Profiler) (c : Call) (hp : ∀ it ∈ p.data_, it.2.Sampled) :
    ∀ it ∈ (p.step c).data_, it.2.Sampled := by
  have h0 : PerThread.empty.Sampled := fun e he => absurd he (List.not_mem_nil _)
  cases c with
  | event tid name times =>
    exact all_updateThread _ h0 p tid (fun t => t.event (p.key name) times) (fun t ht => ht) hp
  | average tid name value =>
    exact all_updateThread _ h0 p tid (fun t => t.average (p.key name) value)
      (fun t ht => Sampled_average t _ value ht) hp
  | begin tid now name =>
    exact all_updateThread _ h0 p tid (fun t => t.begin now name) (fun t ht => ht) hp
  | end_ tid now name =>
    exact all_updateThread _ h0 p tid (fun t => t.end_ now name) (fun t ht => ht) hp
  | start now =>
    simp only [step, start]
    split_ifs <;> exact hp
  | stop now =>
    simp only [step, stop]
    split_ifs <;> exact hp
  | clear now =>
    simp only [step, clear_data]
    exact fun it hit => absurd hit (List.not_mem_nil _)

theorem Sampled_total (p : Profiler) (hw : p.WF) (hp : ∀ it ∈ p.data_, it.2.Sampled) :
    p.totalThreadData.Sampled := by
  intro e he
  have hm := WF_merge p.data_ PerThread.empty ⟨WF_nil, WF_nil, WF_nil⟩
  have h1 := find_of_mem _ hm.2.1 e he
  have h2 : find p.totalThreadData.avg e.1 = some e.2 := h1
  rw [find_total_avg p hw.2, foldEntry_eq] at h2
  split_ifs at h2 with h3
  simp only [Option.getD_none, Option.some.injEq] at h2
  rw [← h2, foldl_mergeAvg]
  have hne : p.avgsOf e.1 ≠ [] := fun h4 => h3 (by rw [h4]; rfl)
  obtain ⟨w, ws, hws⟩ := List.exists_cons_of_ne_nil hne
  have hw1 : w ∈ p.avgsOf e.1 := by rw [hws]; exact List.mem_cons_self _ _
  obtain ⟨it, hit, hfind⟩ := List.mem_filterMap.1 hw1
  have h5 := hp it hit _ (mem_of_find _ _ _ hfind)
  simp only [hws, List.map_cons, List.sum_cons, Prod.snd_add, AvgInfo.zero]
  simp only at h5
  omega

/-- In every state reached from a cleared engine, every average of every thread and of
the merged ledger has at least one sample: the ledgers that `status` hands to
`printThreadInfo` are of the kind C17 is stated for. -/
theorem Sampled_reachable (q : Profiler) (now : Int) (calls : List Call) :
    (∀ it ∈ ((q.clear now).run calls).data_, it.2.Sampled) ∧
      ((q.clear now).run calls).totalThreadData.Sampled := by
  have h : ∀ (p : Profiler) (cs : List Call), (∀ it ∈ p.data_, it.2.Sampled) →
      ∀ it ∈ (p.run cs).data_, it.2.Sampled := by
    intro p cs
    induction cs generalizing p with
    | nil => exact fun hp => hp
    | cons c rest ih => exact fun hp => ih (p.step c) (Sampled_step p c hp)
  have h0 : ∀ it ∈ (q.clear now).data_, it.2.Sampled := by
    rw [clear_data]
    exact fun it hit => absurd hit (List.not_mem_nil _)
  have h1 := h _ calls h0
  have hw := (run_invariant (q.clear now) calls (WF_clear q now) (by
    rw [clear_data]
    exact fun it hit => absurd hit (List.not_mem_nil _))).1
  exact ⟨h1, Sampled_total _ hw h1⟩

end Profiler

end ompl.tools
